import Mathlib

/-!
# Price catalogue service: archive ingestion and CSV export

A shallow embedding of `main.go`: the CSV row parser (`parseCSV`), the two
archive extractors (`extractZip`, `extractTar`), the transactional insert
(`insertPrices`), the statistics query (`getStats`) and the two HTTP
handlers (`postPricesHandler`, `getPricesHandler`).

Conventions of the embedding.

* Text is `String`; the Go program works on bytes, and the delimiters it
  looks at (`,`, `"`, `\n`, `\r`) are single bytes, so nothing is lost for
  well-formed UTF-8.
* A Go result `(v, err)` is an `Except` when `v` is unused on error, and a
  pair when the program returns a meaningful `v` next to the error.
* The database, the file system and the HTTP transport are explicit data:
  the committed table is a list of rows, and every call that can fail in
  the environment reads its outcome from a `Faults` record.
* `float64` is a parameter (`Float64Lib`): the program only parses, prints
  and stores prices, it never computes with them.
-/

namespace PriceService

deriving instance DecidableEq for Except

/-! ## The Go standard library, as far as the program calls it -/

/-- The predicate `unicode.IsSpace`: the Unicode White_Space code points. -/
def unicode.IsSpace (c : Char) : Bool :=
  let n := c.toNat
  (9 ≤ n && n ≤ 13) || n == 32 || n == 0x85 || n == 0xA0 || n == 0x1680 ||
  (0x2000 ≤ n && n ≤ 0x200A) || n == 0x2028 || n == 0x2029 || n == 0x202F ||
  n == 0x205F || n == 0x3000

/-- The function `strings.TrimSpace` on a list of characters. -/
def trimChars (cs : List Char) : List Char :=
  (cs.dropWhile unicode.IsSpace).rdropWhile unicode.IsSpace

/-- The function `strings.TrimSpace`: leading and trailing white space removed. -/
def strings.TrimSpace (s : String) : String :=
  String.mk (trimChars s.data)

/-- The function `strings.HasSuffix`. -/
def strings.HasSuffix (s suffix : String) : Bool :=
  suffix.data.isSuffixOf s.data

/-- An ASCII decimal digit. -/
def isDigit (c : Char) : Bool :=
  48 ≤ c.toNat && c.toNat ≤ 57

/-- The value of an ASCII decimal digit. -/
def digitVal (c : Char) : Nat :=
  c.toNat - 48

/-- The ASCII digit of a value below ten. -/
def digitChar (d : Nat) : Char :=
  Char.ofNat (48 + d)

/-- The number written by a list of digits, most significant first. -/
def digitsValue (cs : List Char) : Nat :=
  cs.foldl (fun n c => n * 10 + digitVal c) 0

/-- A non-empty run of ASCII digits read as a number; `none` on anything else. -/
def parseDigits (cs : List Char) : Option Nat :=
  if cs.isEmpty || !cs.all isDigit then none else some (digitsValue cs)

/-- The function `strconv.Atoi` on a 64-bit platform: an optional sign, then
one or more ASCII digits, the value within `int64`; `none` is a non-nil error
(syntax or range). -/
def strconv.Atoi (s : String) : Option Int :=
  match s.data with
  | '-' :: ds =>
      match parseDigits ds with
      | some n => if n ≤ 2 ^ 63 then some (-(n : Int)) else none
      | none => none
  | '+' :: ds =>
      match parseDigits ds with
      | some n => if n < 2 ^ 63 then some (n : Int) else none
      | none => none
  | ds =>
      match parseDigits ds with
      | some n => if n < 2 ^ 63 then some (n : Int) else none
      | none => none

/-- Decimal digits of `n`, most significant first, pushed in front of `acc`;
`fuel` bounds the number of digits. -/
def natDigitsAux : Nat → Nat → List Char → List Char
  | 0, _, acc => acc
  | fuel + 1, n, acc =>
      if n < 10 then digitChar n :: acc
      else natDigitsAux fuel (n / 10) (digitChar (n % 10) :: acc)

/-- Decimal digits of a natural number, most significant first. -/
def natDigits (n : Nat) : List Char :=
  natDigitsAux (n + 1) n []

/-- The function `strconv.Itoa`. -/
def strconv.Itoa (i : Int) : String :=
  match i with
  | Int.ofNat n => String.mk (natDigits n)
  | Int.negSucc n => String.mk ('-' :: natDigits (n + 1))

/-- The `time.Time` values of the program: calendar days (midnight UTC), as
produced by `time.Parse` with the layout `2006-01-02`. -/
structure Date where
  year : Nat
  month : Nat
  day : Nat
deriving DecidableEq, Repr

/-- The function `isLeap` of package `time`. -/
def isLeap (year : Nat) : Bool :=
  year % 4 == 0 && (year % 100 != 0 || year % 400 == 0)

/-- The function `daysIn` of package `time`. -/
def daysIn (month year : Nat) : Nat :=
  if month == 2 then (if isLeap year then 29 else 28)
  else if month == 4 || month == 6 || month == 9 || month == 11 then 30
  else 31

/-- The call `time.Parse("2006-01-02", value)`: four digits, `-`, two digits,
`-`, two digits and nothing else; the month within 1..12 and the day within
the month. `none` is a non-nil error. -/
def time.Parse (value : String) : Option Date :=
  match value.data with
  | [y1, y2, y3, y4, s1, m1, m2, s2, d1, d2] =>
      if [y1, y2, y3, y4, m1, m2, d1, d2].all isDigit && s1 == '-' && s2 == '-' then
        let year := digitsValue [y1, y2, y3, y4]
        let month := digitsValue [m1, m2]
        let day := digitsValue [d1, d2]
        if month < 1 || 12 < month then none
        else if day < 1 || daysIn month year < day then none
        else some ⟨year, month, day⟩
      else none
  | _ => none

/-- Digits of `n` padded with zeros on the left to at least `width` characters. -/
def padDigits (width n : Nat) : List Char :=
  let ds := natDigits n
  List.replicate (width - ds.length) '0' ++ ds

/-- The call `t.Format("2006-01-02")`. -/
def time.Format (t : Date) : String :=
  String.mk (padDigits 4 t.year ++ '-' :: padDigits 2 t.month ++ '-' :: padDigits 2 t.day)

/-- The `float64` operations the program relies on. `ParseFloat s` is
`strconv.ParseFloat(s, 64)` with `none` for a non-nil error; `FormatFloat x`
is `strconv.FormatFloat(x, 'f', 2, 64)`; `add` and `zero` are what the
database uses for `SUM(price)`; `toDecimal x` is what a `DECIMAL(10,2)`
column holds once `x` is inserted, as a later `Scan` into a `float64` reads
it: `x` rounded to two decimals, and `none` when the column rejects `x`
(numeric field overflow). -/
structure Float64Lib (F : Type) where
  ParseFloat : String → Option F
  FormatFloat : F → String
  add : F → F → F
  zero : F
  toDecimal : F → Option F

/-- Reads `[+-]digits` or `[+-]digits.d` or `[+-]digits.dd`, with at most
thirteen integer digits, as a number of hundredths; a negative zero is not
read. -/
def parseCents (s : String) : Option Int :=
  let body (cs : List Char) : Option Nat :=
    match cs.splitOn '.' with
    | [ip] =>
        if ip.length ≤ 13 then (parseDigits ip).map (fun n => n * 100) else none
    | [ip, fp] =>
        if ip.length ≤ 13 then
          match parseDigits ip, parseDigits fp, fp.length with
          | some n, some f, 1 => some (n * 100 + f * 10)
          | some n, some f, 2 => some (n * 100 + f)
          | _, _, _ => none
        else none
    | _ => none
  match s.data with
  | '-' :: cs =>
      match body cs with
      | some (n + 1) => some (-((n + 1 : Nat) : Int))
      | _ => none
  | '+' :: cs => (body cs).map (fun n => (n : Int))
  | cs => (body cs).map (fun n => (n : Int))

/-- Prints a number of hundredths with two decimals. -/
def formatCents (c : Int) : String :=
  let n := c.natAbs
  String.mk ((if c < 0 then ['-'] else []) ++ natDigits (n / 100) ++ '.' :: padDigits 2 (n % 100))

/-- A concrete `float64` stand-in used to evaluate examples: prices with at
most two decimals and at most thirteen integer digits, kept as an exact number
of hundredths. On the strings it accepts Go returns the `float64` nearest to
the same number, and Go prints such a value back with the same two decimals.
Notations outside this fragment (exponents, hexadecimal, `Inf`, `NaN`, more
decimals, a bare trailing or leading point, negative zero), some of which Go
accepts, are rejected here; no theorem below that quantifies over
`Float64Lib` depends on this choice. A number of hundredths needs no
rounding in a `DECIMAL(10,2)` column, which holds it when it has at most ten
digits. -/
def centsFloat : Float64Lib Int where
  ParseFloat := parseCents
  FormatFloat := formatCents
  add := fun a b => a + b
  zero := 0
  toDecimal := fun c => if c.natAbs < 10000000000 then some c else none

/-! ### `encoding/csv` with the default settings

The reader below is `csv.NewReader(r).ReadAll()` with every option at its
default: comma `,`, no comment character, `LazyQuotes` off,
`TrimLeadingSpace` off and `FieldsPerRecord = 0`, which makes the first
record fix the number of fields every later record must have. -/

/-- The errors of `csv.Reader`. -/
inductive CsvError where
  | ErrBareQuote
  | ErrQuote
  | ErrFieldCount
deriving DecidableEq, Repr

/-- The line clean-up of `Reader.readLine`, applied to the whole input: a
`\r` right before `\n` is removed, and so is a `\r` that ends the input. -/
def csvNormalize : List Char → List Char
  | [] => []
  | c :: rest =>
      if c == '\r' then
        match rest with
        | [] => []
        | d :: _ => if d == '\n' then csvNormalize rest else c :: csvNormalize rest
      else c :: csvNormalize rest

/-- Where `Reader.readRecord` stands in its input. -/
inductive CsvMode where
  | recordStart
  | fieldStart
  | unquoted
  | quoted
  | afterQuote
deriving DecidableEq, Repr

/-- The state of the reader: the mode, the field and the record being
built, the records finished so far and `FieldsPerRecord` (0 while unset). -/
structure CsvState where
  mode : CsvMode
  field : List Char
  record : List String
  records : List (List String)
  fieldsPerRecord : Nat
deriving DecidableEq, Repr

/-- The field being built is finished and joins the record. -/
def CsvState.endField (st : CsvState) : CsvState :=
  { st with mode := CsvMode.fieldStart, field := [], record := st.record ++ [String.mk st.field] }

/-- The record being built is finished: its last field is closed, then the
field-count check of `readRecord` runs. With `FieldsPerRecord = 0` the first
record sets the expected count; a later record with another count is
`ErrFieldCount`. -/
def CsvState.endRecord (st : CsvState) : Except CsvError CsvState :=
  let record := st.record ++ [String.mk st.field]
  if st.fieldsPerRecord == 0 then
    .ok { mode := CsvMode.recordStart, field := [], record := [],
          records := st.records ++ [record], fieldsPerRecord := record.length }
  else if record.length != st.fieldsPerRecord then
    .error CsvError.ErrFieldCount
  else
    .ok { st with mode := CsvMode.recordStart, field := [], record := [],
                  records := st.records ++ [record] }

/-- One character of input. -/
def CsvState.step (st : CsvState) (c : Char) : Except CsvError CsvState :=
  match st.mode with
  | CsvMode.recordStart =>
      if c == '\n' then .ok st
      else if c == '"' then .ok { st with mode := CsvMode.quoted }
      else if c == ',' then .ok st.endField
      else .ok { st with mode := CsvMode.unquoted, field := [c] }
  | CsvMode.fieldStart =>
      if c == '\n' then st.endRecord
      else if c == '"' then .ok { st with mode := CsvMode.quoted }
      else if c == ',' then .ok st.endField
      else .ok { st with mode := CsvMode.unquoted, field := [c] }
  | CsvMode.unquoted =>
      if c == '\n' then st.endRecord
      else if c == '"' then .error CsvError.ErrBareQuote
      else if c == ',' then .ok st.endField
      else .ok { st with field := st.field ++ [c] }
  | CsvMode.quoted =>
      if c == '"' then .ok { st with mode := CsvMode.afterQuote }
      else .ok { st with field := st.field ++ [c] }
  | CsvMode.afterQuote =>
      if c == '"' then .ok { st with mode := CsvMode.quoted, field := st.field ++ ['"'] }
      else if c == ',' then .ok st.endField
      else if c == '\n' then st.endRecord
      else .error CsvError.ErrQuote

/-- The reader runs over the input, stopping at the first error. -/
def csvRun : CsvState → List Char → Except CsvError CsvState
  | st, [] => .ok st
  | st, c :: rest =>
      match st.step c with
      | .error e => .error e
      | .ok st1 => csvRun st1 rest

/-- End of input. -/
def CsvState.finish (st : CsvState) : Except CsvError (List (List String)) :=
  match st.mode with
  | CsvMode.recordStart => .ok st.records
  | CsvMode.quoted => .error CsvError.ErrQuote
  | _ =>
      match st.endRecord with
      | .error e => .error e
      | .ok st1 => .ok st1.records

/-- The state of a fresh reader. -/
def csvInit : CsvState :=
  { mode := CsvMode.recordStart, field := [], record := [], records := [], fieldsPerRecord := 0 }

/-- The call `csv.NewReader(r).ReadAll()`. -/
def csvReadAll (r : String) : Except CsvError (List (List String)) :=
  match csvRun csvInit (csvNormalize r.data) with
  | .error e => .error e
  | .ok st => st.finish

/-- The method `Writer.fieldNeedsQuotes` with the default comma. -/
def fieldNeedsQuotes (field : String) : Bool :=
  if field == "" then false
  else if field == "\\." then true
  else if field.data.any (fun c => c == '\n' || c == '\r' || c == '"' || c == ',') then true
  else
    match field.data with
    | [] => false
    | c :: _ => unicode.IsSpace c

/-- One field as `Writer.Write` prints it (`UseCRLF` off): as it is, or in
quotes with every quote doubled. -/
def csvWriteField (field : String) : List Char :=
  if fieldNeedsQuotes field then
    '"' :: (field.data.flatMap (fun c => if c == '"' then ['"', '"'] else [c])) ++ ['"']
  else field.data

/-- One record as `Writer.Write` prints it: the fields separated by commas,
then a newline. -/
def csvWriteRecord (record : List String) : List Char :=
  (List.intercalate [','] (record.map csvWriteField)) ++ ['\n']

/-- The text a `csv.Writer` holds after one `Write` per record and `Flush`. -/
def csvWriteAll (records : List (List String)) : String :=
  String.mk (records.flatMap csvWriteRecord)

/-! ## The program -/

/-- The struct `Price`. -/
structure Price (F : Type) where
  ID : Int
  Name : String
  Category : String
  Price : F
  CreateDate : Date
deriving DecidableEq, Repr

/-- The struct `Response`. -/
structure Response (F : Type) where
  TotalItems : Nat
  TotalCategories : Nat
  TotalPrice : F
deriving DecidableEq, Repr

/-- The non-nil `error` values the program can meet. -/
inductive Err where
  | csv (e : CsvError)
  | staging
  | zipOpen
  | memberRead
  | tarHeader
  | txBegin
  | txExec
  | txCommit
  | query
  | scan
  | rowsErr
  | tempFile
  | writer
  | zipWrite
deriving DecidableEq, Repr

/-- The body of the loop of `parseCSV` for one record: `none` is `continue`,
`some p` is the `Price` that is appended. -/
def parseRecord {F : Type} (fl : Float64Lib F) (record : List String) : Option (Price F) :=
  if record.length < 5 then none
  else
    match strconv.Atoi (strings.TrimSpace (record.getD 0 "")) with
    | none => none
    | some id =>
        let name := strings.TrimSpace (record.getD 1 "")
        let category := strings.TrimSpace (record.getD 2 "")
        match fl.ParseFloat (strings.TrimSpace (record.getD 3 "")) with
        | none => none
        | some price =>
            match time.Parse (strings.TrimSpace (record.getD 4 "")) with
            | none => none
            | some createDate =>
                some { ID := id, Name := name, Category := category, Price := price,
                       CreateDate := createDate }

/-- The loop `for i := 1; i < len(records); i++` of `parseCSV`, run over the
records still to visit with the slice `prices` built so far. -/
def parseLoop {F : Type} (fl : Float64Lib F) : List (List String) → List (Price F) → List (Price F)
  | [], prices => prices
  | record :: rest, prices =>
      match parseRecord fl record with
      | none => parseLoop fl rest prices
      | some p => parseLoop fl rest (prices ++ [p])

/-- What `parseCSV` does with the records `ReadAll` returned. -/
def parseRecords {F : Type} (fl : Float64Lib F) (records : List (List String)) : List (Price F) :=
  if records.length < 2 then []
  else parseLoop fl (records.drop 1) []

/-- The function `parseCSV`. -/
def parseCSV {F : Type} (fl : Float64Lib F) (r : String) : Except Err (List (Price F)) :=
  match csvReadAll r with
  | .error e => .error (Err.csv e)
  | .ok records => .ok (parseRecords fl records)

/-- A member of an archive as the extractors see it: its name, and its bytes
(`none` when opening or reading the member fails). -/
structure Member where
  Name : String
  content : Option String
deriving DecidableEq, Repr

/-- The TAR view of an upload: the entries `tarReader.Next()` returns in
turn, and whether the stream then ends with an error instead of `io.EOF`. -/
structure TarStream where
  entries : List Member
  broken : Bool
deriving DecidableEq, Repr

/-- The uploaded bytes, seen through the two decoders: `zip` is what
`zip.OpenReader` gives on the staged file (`none` when it fails), `tar` is
what `tar.NewReader` reads. -/
structure Upload where
  zip : Option (List Member)
  tar : TarStream
deriving DecidableEq, Repr

/-- Outcomes of the calls that can fail in the environment. `execFails i`
is a failure of `tx.Exec` for the record at position `i` of the batch that
does not come from the values (those the column types decide), `scanFails i`
a failure of `rows.Scan` for the `i`-th row of the export query. -/
structure Faults where
  stagingFails : Bool
  beginFails : Bool
  execFails : Nat → Bool
  commitFails : Bool
  statsQueryFails : Bool
  exportQueryFails : Bool
  scanFails : Nat → Bool
  rowsErrFails : Bool
  tempFileFails : Bool
  writerFails : Bool
  zipWriteFails : Bool

/-- The environment in which no call fails. -/
def noFaults : Faults :=
  { stagingFails := false, beginFails := false, execFails := fun _ => false,
    commitFails := false, statsQueryFails := false, exportQueryFails := false,
    scanFails := fun _ => false, rowsErrFails := false, tempFileFails := false,
    writerFails := false, zipWriteFails := false }

/-- The loop `for _, file := range zipReader.File` of `extractZip`. -/
def extractZipLoop {F : Type} (fl : Float64Lib F) : List Member → Except Err (List (Price F))
  | [] => .ok []
  | file :: rest =>
      if strings.HasSuffix file.Name ".csv" then
        match file.content with
        | none => .error Err.memberRead
        | some rc => parseCSV fl rc
      else extractZipLoop fl rest

/-- The function `extractZip` (its `size` argument is unused). -/
def extractZip {F : Type} (fl : Float64Lib F) (env : Faults) (r : Upload) :
    Except Err (List (Price F)) :=
  if env.stagingFails then .error Err.staging
  else
    match r.zip with
    | none => .error Err.zipOpen
    | some files => extractZipLoop fl files

/-- The loop `for { header, err := tarReader.Next() ... }` of `extractTar`. -/
def extractTarLoop {F : Type} (fl : Float64Lib F) (broken : Bool) :
    List Member → Except Err (List (Price F))
  | [] => if broken then .error Err.tarHeader else .ok []
  | header :: rest =>
      if strings.HasSuffix header.Name ".csv" then
        match header.content with
        | none => .error Err.memberRead
        | some data => parseCSV fl data
      else extractTarLoop fl broken rest

/-- The function `extractTar`. -/
def extractTar {F : Type} (fl : Float64Lib F) (env : Faults) (r : Upload) :
    Except Err (List (Price F)) :=
  if env.stagingFails then .error Err.staging
  else extractTarLoop fl r.tar.broken r.tar.entries

/-- A row of the table `prices`: the `SERIAL` key, then the four columns
the program writes, each as a `Scan` reads it back (`price` as the `float64`
of the `DECIMAL(10,2)` value). -/
structure Row (F : Type) where
  id : Int
  name : String
  category : String
  price : F
  create_date : Date
deriving DecidableEq, Repr

/-- The database: the committed rows of `prices` in insertion order, and the
last value drawn from the sequence behind the `SERIAL` column. The same
shape serves as the working state of an open transaction. -/
structure DB (F : Type) where
  rows : List (Row F)
  lastId : Int
deriving DecidableEq, Repr

/-- The column type `VARCHAR(255)` on insert: a text of at most 255
characters is stored as it is; a longer one is stored cut to 255 characters
when all that is cut are spaces, and is rejected (`none`) otherwise. -/
def varchar255 (s : String) : Option String :=
  if s.length ≤ 255 then some s
  else if (s.data.drop 255).all (fun c => c == ' ') then some (String.mk (s.data.take 255))
  else none

/-- What the columns `name`, `category`, `price`, `create_date` hold for an
inserted record: the texts as `VARCHAR(255)` stores them, the price as
`DECIMAL(10,2)` stores it, the date unchanged; `none` when a column type
rejects its value. -/
def columnValues {F : Type} (fl : Float64Lib F) (price : Price F) :
    Option (String × String × F × Date) :=
  match varchar255 price.Name, varchar255 price.Category, fl.toDecimal price.Price with
  | some name, some category, some p => some (name, category, p, price.CreateDate)
  | _, _, _ => none

/-- The statement `INSERT INTO prices (name, category, price, create_date)
VALUES ($1, $2, $3, $4)` inside a transaction: the key comes from the
sequence, `price.ID` is not among the values, and each value is stored as
its column type holds it. `none` is a statement the column types reject. -/
def execInsert {F : Type} (fl : Float64Lib F) (tx : DB F) (price : Price F) : Option (DB F) :=
  match columnValues fl price with
  | none => none
  | some (name, category, p, createDate) =>
      some { rows := tx.rows ++ [{ id := tx.lastId + 1, name := name, category := category,
                                   price := p, create_date := createDate }],
             lastId := tx.lastId + 1 }

/-- The loop `for _, price := range prices` of `insertPrices`, from position
`i` of the batch on, with the transaction state and `insertedCount` so far.
`Except.error tx` is the early `return 0, err` of a failed `Exec`: one the
environment fails (`execFails i`) or one the column types reject. -/
def insertLoop {F : Type} (fl : Float64Lib F) (env : Faults) :
    List (Price F) → Nat → DB F → Nat → Except (DB F) (DB F × Nat)
  | [], _, tx, insertedCount => .ok (tx, insertedCount)
  | price :: rest, i, tx, insertedCount =>
      if env.execFails i then .error tx
      else
        match execInsert fl tx price with
        | none => .error tx
        | some tx1 => insertLoop fl env rest (i + 1) tx1 (insertedCount + 1)

/-- The function `insertPrices`: the returned pair `(count, err)` and the
database afterwards. A rollback (the deferred `tx.Rollback()` or a failed
`Commit`) leaves the committed rows as they were; sequence values drawn by
the transaction are not given back. -/
def insertPrices {F : Type} (fl : Float64Lib F) (env : Faults) (db : DB F)
    (prices : List (Price F)) : (Nat × Option Err) × DB F :=
  if env.beginFails then ((0, some Err.txBegin), db)
  else
    match insertLoop fl env prices 0 db 0 with
    | .error tx => ((0, some Err.txExec), { rows := db.rows, lastId := tx.lastId })
    | .ok (tx, insertedCount) =>
        if env.commitFails then ((0, some Err.txCommit), { rows := db.rows, lastId := tx.lastId })
        else ((insertedCount, none), tx)

/-- The function `getStats`: `COUNT(DISTINCT category)` and
`COALESCE(SUM(price), 0)` over the whole table, next to the count handed in. -/
def getStats {F : Type} (fl : Float64Lib F) (env : Faults) (db : DB F) (insertedCount : Nat) :
    Response F × Option Err :=
  if env.statsQueryFails then
    ({ TotalItems := insertedCount, TotalCategories := 0, TotalPrice := fl.zero }, some Err.query)
  else
    ({ TotalItems := insertedCount,
       TotalCategories := (db.rows.map (fun r => r.category)).dedup.length,
       TotalPrice := (db.rows.map (fun r => r.price)).foldl fl.add fl.zero }, none)

/-- The multipart form of an upload request: `ParseMultipartForm` fails,
`FormFile("file")` fails, or the file is there. -/
inductive Form where
  | malformed
  | noFile
  | file (f : Upload)
deriving DecidableEq, Repr

/-- An upload request: the query parameter `type` (`none` when absent) and
the form. -/
structure Request where
  type : Option String
  form : Form
deriving DecidableEq, Repr

/-- The calls of `postPricesHandler` that the trace of a request records. -/
inductive Call where
  | extractZip
  | extractTar
  | insertPrices
  | getStats
deriving DecidableEq, Repr

/-- What `postPricesHandler` writes to the client. -/
inductive Reply (F : Type) where
  | formError
  | fileError
  | zipError
  | tarError
  | unsupportedType
  | insertError
  | statsError
  | json (stats : Response F)
deriving DecidableEq, Repr

/-- The outcome of an upload request: HTTP status, reply, the database
afterwards and the calls made, in order. -/
structure PostResult (F : Type) where
  status : Nat
  reply : Reply F
  db : DB F
  calls : List Call
deriving DecidableEq, Repr

/-- The constant `http.StatusBadRequest`. -/
def StatusBadRequest : Nat := 400

/-- The constant `http.StatusInternalServerError`. -/
def StatusInternalServerError : Nat := 500

/-- The constant `http.StatusOK`, the status of a reply written without `http.Error`. -/
def StatusOK : Nat := 200

/-- The part of `postPricesHandler` after the `switch`: insert, then stats. -/
def storeAndReply {F : Type} (fl : Float64Lib F) (env : Faults) (db : DB F)
    (prices : List (Price F)) (calls : List Call) : PostResult F :=
  match insertPrices fl env db prices with
  | ((_, some _), db1) =>
      { status := StatusInternalServerError, reply := Reply.insertError, db := db1,
        calls := calls ++ [Call.insertPrices] }
  | ((insertedCount, none), db1) =>
      match getStats fl env db1 insertedCount with
      | (_, some _) =>
          { status := StatusInternalServerError, reply := Reply.statsError, db := db1,
            calls := calls ++ [Call.insertPrices, Call.getStats] }
      | (stats, none) =>
          { status := StatusOK, reply := Reply.json stats, db := db1,
            calls := calls ++ [Call.insertPrices, Call.getStats] }

/-- The handler `postPricesHandler`. -/
def postPricesHandler {F : Type} (fl : Float64Lib F) (env : Faults) (db : DB F) (r : Request) :
    PostResult F :=
  let archiveType := if r.type.getD "" == "" then "zip" else r.type.getD ""
  match r.form with
  | Form.malformed =>
      { status := StatusBadRequest, reply := Reply.formError, db := db, calls := [] }
  | Form.noFile =>
      { status := StatusBadRequest, reply := Reply.fileError, db := db, calls := [] }
  | Form.file file =>
      if archiveType == "zip" then
        match extractZip fl env file with
        | .error _ =>
            { status := StatusInternalServerError, reply := Reply.zipError, db := db,
              calls := [Call.extractZip] }
        | .ok prices => storeAndReply fl env db prices [Call.extractZip]
      else if archiveType == "tar" then
        match extractTar fl env file with
        | .error _ =>
            { status := StatusInternalServerError, reply := Reply.tarError, db := db,
              calls := [Call.extractTar] }
        | .ok prices => storeAndReply fl env db prices [Call.extractTar]
      else
        { status := StatusBadRequest, reply := Reply.unsupportedType, db := db, calls := [] }

/-- The header record of the export. -/
def exportHeader : List String :=
  ["id", "name", "category", "price", "create_date"]

/-- The record `getPricesHandler` writes for one scanned row. -/
def exportRecord {F : Type} (fl : Float64Lib F) (row : Row F) : List String :=
  [strconv.Itoa row.id, row.name, row.category, fl.FormatFloat row.price,
   time.Format row.create_date]

/-- The query `SELECT id, name, category, price, create_date FROM prices
ORDER BY id`. -/
def selectOrderById {F : Type} (db : DB F) : List (Row F) :=
  db.rows.insertionSort (fun a b => a.id ≤ b.id)

/-- The loop `for rows.Next()` of `getPricesHandler`, from row number `i`
on, with the records written so far. -/
def exportLoop {F : Type} (fl : Float64Lib F) (env : Faults) :
    List (Row F) → Nat → List (List String) → Except Err (List (List String))
  | [], _, written => .ok written
  | row :: rest, i, written =>
      if env.scanFails i then .error Err.scan
      else exportLoop fl env rest (i + 1) (written ++ [exportRecord fl row])

/-- What `getPricesHandler` writes to the client: an error reply, or the ZIP
archive as the list of its members (name, bytes). -/
inductive ExportReply where
  | error (e : Err)
  | zip (members : List (String × String))
deriving DecidableEq, Repr

/-- The outcome of an export request. -/
structure GetResult where
  status : Nat
  reply : ExportReply
deriving DecidableEq, Repr

/-- The records handed to `writer.Write` by `getPricesHandler`, in order. -/
def exportRecords {F : Type} (fl : Float64Lib F) (env : Faults) (db : DB F) :
    Except Err (List (List String)) :=
  if env.exportQueryFails then .error Err.query
  else if env.tempFileFails then .error Err.tempFile
  else
    match exportLoop fl env (selectOrderById db) 0 [exportHeader] with
    | .error e => .error e
    | .ok written =>
        if env.rowsErrFails then .error Err.rowsErr
        else if env.writerFails then .error Err.writer
        else .ok written

/-- The handler `getPricesHandler`. -/
def getPricesHandler {F : Type} (fl : Float64Lib F) (env : Faults) (db : DB F) : GetResult :=
  match exportRecords fl env db with
  | .error e => { status := StatusInternalServerError, reply := ExportReply.error e }
  | .ok written =>
      if env.zipWriteFails then
        { status := StatusInternalServerError, reply := ExportReply.error Err.zipWrite }
      else
        { status := StatusOK, reply := ExportReply.zip [("data.csv", csvWriteAll written)] }

/-! ## Properties in the words of the specification, and sample data -/

/-- The validity of a row in the words of the specification: at least five
fields, field 0 an integer, field 3 a decimal number, field 4 a date, each
after trimming. -/
def validRow {F : Type} (fl : Float64Lib F) (row : List String) : Prop :=
  5 ≤ row.length ∧
  (strconv.Atoi (strings.TrimSpace (row.getD 0 ""))).isSome ∧
  (fl.ParseFloat (strings.TrimSpace (row.getD 3 ""))).isSome ∧
  (time.Parse (strings.TrimSpace (row.getD 4 ""))).isSome

/-- Validity of a row can be computed. -/
instance validRowDecidable {F : Type} (fl : Float64Lib F) (row : List String) :
    Decidable (validRow fl row) := by
  unfold validRow
  infer_instance

/-- An archive given as an ordered list of (member name, member bytes), every
member readable. -/
def asMembers (ms : List (String × String)) : List Member :=
  ms.map (fun m => { Name := m.1, content := some m.2 })

/-- A two-row CSV text with one valid data row and one whose id does not parse. -/
def sampleCsv : String :=
  "id,name,category,price,create_date\n1,Widget,Tools,9.99,2024-01-15\nx,Bad,Tools,1.00,2024-01-16\n"

/-- An archive whose first `.csv` member is preceded by another file and
followed by a second `.csv` member and by `DATA.CSV`. -/
def sampleArchive : List (String × String) :=
  [("readme.txt", "hello"), ("data.csv", sampleCsv), ("later.csv", "a,b\n\"x"),
   ("DATA.CSV", "ignored")]

/-- The rows a committed batch adds when the sequence stands at `lastId`: one
row per record, in batch order, with consecutive keys after `lastId` and
with the record's name, category, price and date as the columns hold them
(the list stops at a record the columns reject). -/
def storedRows {F : Type} (fl : Float64Lib F) (lastId : Int) : List (Price F) → List (Row F)
  | [] => []
  | p :: rest =>
      match columnValues fl p with
      | none => []
      | some (name, category, price, createDate) =>
          { id := lastId + 1, name := name, category := category, price := price,
            create_date := createDate } :: storedRows fl (lastId + 1) rest

/-- A record written as a table row, its `ID` as the key. -/
def recordAsRow {F : Type} (p : Price F) : Row F :=
  { id := p.ID, name := p.Name, category := p.Category, price := p.Price,
    create_date := p.CreateDate }

/-- The success half of the insert in the words of the specification: the
call returns the batch length with no error and the table is the old table
plus exactly the batch's records. -/
def specInsertSuccess {F : Type} (fl : Float64Lib F) (env : Faults) (db : DB F)
    (prices : List (Price F)) : Prop :=
  (insertPrices fl env db prices).1 = (prices.length, none) ∧
  (insertPrices fl env db prices).2.rows = db.rows ++ prices.map recordAsRow

/-- A batch of three records. -/
def sampleBatch : List (Price Int) :=
  [{ ID := 7, Name := "Widget", Category := "Tools", Price := 999, CreateDate := ⟨2024, 1, 15⟩ },
   { ID := 7, Name := "Gadget", Category := "Toys", Price := 150, CreateDate := ⟨2024, 1, 16⟩ },
   { ID := 9, Name := "Gizmo", Category := "Tools", Price := 5, CreateDate := ⟨2024, 2, 29⟩ }]

/-- A database holding one committed row. -/
def sampleDB : DB Int :=
  { rows := [{ id := 1, name := "Old", category := "Misc", price := 100,
               create_date := ⟨2023, 12, 31⟩ }],
    lastId := 1 }

/-- The first member whose name ends in `.csv`. -/
def firstCsv (ms : List Member) : Option Member :=
  ms.find? (fun m => strings.HasSuffix m.Name ".csv")

/-- The members of the archive an upload request selects: the TAR entries
for `type=tar`, the ZIP entries otherwise. -/
def archiveMembers (type : Option String) (file : Upload) : List Member :=
  if type = some "tar" then file.tar.entries else file.zip.getD []

/-- A request uploading a ZIP archive whose only CSV is `sampleCsv`, with no
`type` parameter. -/
def sampleRequest : Request :=
  { type := none,
    form := Form.file { zip := some (asMembers sampleArchive), tar := ⟨[], true⟩ } }

/-- Any two rows compare by key. -/
instance rowIdTotal {F : Type} : IsTotal (Row F) (fun a b => a.id ≤ b.id) :=
  ⟨fun a b => le_total a.id b.id⟩

/-- The order of rows by key is transitive. -/
instance rowIdTrans {F : Type} : IsTrans (Row F) (fun a b => a.id ≤ b.id) :=
  ⟨fun _ _ _ hab hbc => le_trans hab hbc⟩

/-- A table with three rows, not stored in key order. -/
def sampleTable : DB Int :=
  { rows := [{ id := 3, name := "Gizmo", category := "Tools", price := 5,
               create_date := ⟨2024, 2, 29⟩ },
             { id := 1, name := "Widget, large", category := "Tools", price := 999,
               create_date := ⟨2024, 1, 15⟩ },
             { id := 2, name := "Gadget", category := "Toys", price := 150,
               create_date := ⟨2024, 1, 16⟩ }],
    lastId := 3 }

/-- The data-model invariant of a record in the words of the specification:
name and category non-empty after trimming, price non-negative. -/
def specRecordInvariant (p : Price Int) : Prop :=
  strings.TrimSpace p.Name ≠ "" ∧ strings.TrimSpace p.Category ≠ "" ∧ 0 ≤ p.Price

/-- The invariant of the specification can be computed. -/
instance specRecordInvariantDecidable (p : Price Int) : Decidable (specRecordInvariant p) := by
  unfold specRecordInvariant
  infer_instance

/-- A CSV text with a five-field header, a valid data row and a data row of
two fields. -/
def raggedCsv : String :=
  "id,name,category,price,create_date\n1,Widget,Tools,9.99,2024-01-15\n2,Short\n"

/-- The export of the table, fed back as a ZIP upload without `type`
parameter; `none` when the export fails. -/
def exportThenReimport {F : Type} (fl : Float64Lib F) (env : Faults) (db : DB F) :
    Option (PostResult F) :=
  match (getPricesHandler fl env db).reply with
  | ExportReply.error _ => none
  | ExportReply.zip members =>
      some (postPricesHandler fl env db
        { type := none, form := Form.file { zip := some (asMembers members), tar := ⟨[], true⟩ } })

/-- The round-trip property in the words of the specification: re-import
succeeds, `total_items` is the number of data rows of the exported CSV, and
the rows the re-import stores are the exported rows, key included. -/
def specRoundTrip {F : Type} (fl : Float64Lib F) (db : DB F) : Prop :=
  ∃ res stats, exportThenReimport fl noFaults db = some res ∧
    res.reply = Reply.json stats ∧
    stats.TotalItems = (selectOrderById db).length ∧
    res.db.rows.drop db.rows.length = selectOrderById db

/-- A stored row that printing, reading back and storing again leaves alone:
the key within `int64`, name and category trimmed and free of carriage
returns, the price printed with two decimals parsing back to itself, the
date a valid day of a year up to 9999, and, as for every value read from
the columns, name and category of at most 255 characters and a price that
`DECIMAL(10,2)` stores unchanged. -/
def rowRoundTrips {F : Type} (fl : Float64Lib F) (row : Row F) : Prop :=
  -(2 : Int) ^ 63 ≤ row.id ∧ row.id < (2 : Int) ^ 63 ∧
  strings.TrimSpace row.name = row.name ∧ '\r' ∉ row.name.data ∧
  strings.TrimSpace row.category = row.category ∧ '\r' ∉ row.category.data ∧
  fl.ParseFloat (strings.TrimSpace (fl.FormatFloat row.price)) = some row.price ∧
  '\r' ∉ (fl.FormatFloat row.price).data ∧
  row.create_date.year ≤ 9999 ∧ 1 ≤ row.create_date.month ∧ row.create_date.month ≤ 12 ∧
  1 ≤ row.create_date.day ∧
  row.create_date.day ≤ daysIn row.create_date.month row.create_date.year ∧
  row.name.length ≤ 255 ∧ row.category.length ≤ 255 ∧
  fl.toDecimal row.price = some row.price

/-- A stored row whose name, category and printed price hold no carriage
return. -/
def rowHasNoCR {F : Type} (fl : Float64Lib F) (row : Row F) : Prop :=
  '\r' ∉ row.name.data ∧ '\r' ∉ row.category.data ∧ '\r' ∉ (fl.FormatFloat row.price).data

/-- Whether a row prints and reads back unchanged can be computed. -/
instance rowRoundTripsDecidable {F : Type} [DecidableEq F] (fl : Float64Lib F) (row : Row F) :
    Decidable (rowRoundTrips fl row) := by
  unfold rowRoundTrips
  infer_instance

/-- Whether a row holds a carriage return can be computed. -/
instance rowHasNoCRDecidable {F : Type} (fl : Float64Lib F) (row : Row F) :
    Decidable (rowHasNoCR fl row) := by
  unfold rowHasNoCR
  infer_instance

/-- The record the row parser builds from an exported row. -/
def rowAsPrice {F : Type} (row : Row F) : Price F :=
  { ID := row.id, Name := row.name, Category := row.category, Price := row.price,
    CreateDate := row.create_date }

/-- A table with the single row of key 1, as an upload of `Widget` into an
empty table leaves it. -/
def oneRowTable : DB Int :=
  { rows := [{ id := 1, name := "Widget", category := "Tools", price := 999,
               create_date := ⟨2024, 1, 15⟩ }],
    lastId := 1 }

/-! # Theorems -/

/-! ## Row parser -/

theorem parseLoop_eq_append {F : Type} (fl : Float64Lib F) (rows : List (List String)) :
    ∀ prices : List (Price F),
      parseLoop fl rows prices = prices ++ rows.filterMap (parseRecord fl) := by
  induction rows with
  | nil => intro prices; simp [parseLoop]
  | cons row rest ih =>
      intro prices
      cases h : parseRecord fl row with
      | none => simp [parseLoop, h, ih, List.filterMap_cons]
      | some p => simp [parseLoop, h, ih, List.filterMap_cons]

theorem parseRecords_cons {F : Type} (fl : Float64Lib F) (header : List String)
    (rows : List (List String)) :
    parseRecords fl (header :: rows) = rows.filterMap (parseRecord fl) := by
  cases rows with
  | nil => simp [parseRecords]
  | cons row rest => simp [parseRecords, parseLoop_eq_append]

theorem parseRecord_isSome_iff {F : Type} (fl : Float64Lib F) (row : List String) :
    (parseRecord fl row).isSome ↔ validRow fl row := by
  unfold parseRecord validRow
  by_cases hlen : row.length < 5
  · simp [hlen]
  · have h5 : 5 ≤ row.length := by omega
    simp only [hlen, if_false, h5, true_and]
    cases strconv.Atoi (strings.TrimSpace (row.getD 0 "")) with
    | none => simp
    | some id =>
        cases fl.ParseFloat (strings.TrimSpace (row.getD 3 "")) with
        | none => simp
        | some price =>
            cases time.Parse (strings.TrimSpace (row.getD 4 "")) with
            | none => simp
            | some d => simp

theorem parseRecord_fields {F : Type} (fl : Float64Lib F) (row : List String) (p : Price F)
    (h : parseRecord fl row = some p) :
    5 ≤ row.length ∧
    strconv.Atoi (strings.TrimSpace (row.getD 0 "")) = some p.ID ∧
    p.Name = strings.TrimSpace (row.getD 1 "") ∧
    p.Category = strings.TrimSpace (row.getD 2 "") ∧
    fl.ParseFloat (strings.TrimSpace (row.getD 3 "")) = some p.Price ∧
    time.Parse (strings.TrimSpace (row.getD 4 "")) = some p.CreateDate := by
  unfold parseRecord at h
  by_cases hlen : row.length < 5
  · rw [if_pos hlen] at h
    exact absurd h (by simp)
  · have h5 : 5 ≤ row.length := by omega
    rw [if_neg hlen] at h
    cases h0 : strconv.Atoi (strings.TrimSpace (row.getD 0 "")) with
    | none =>
        rw [h0] at h
        exact absurd h (by simp)
    | some id =>
        cases h3 : fl.ParseFloat (strings.TrimSpace (row.getD 3 "")) with
        | none =>
            rw [h0, h3] at h
            exact absurd h (by simp)
        | some price =>
            cases h4 : time.Parse (strings.TrimSpace (row.getD 4 "")) with
            | none =>
                rw [h0, h3, h4] at h
                exact absurd h (by simp)
            | some d =>
                rw [h0, h3, h4] at h
                have hp := Option.some.inj h
                subst hp
                exact ⟨h5, rfl, rfl, rfl, rfl, rfl⟩

/-- C1. Row parser as a filter over the rows the tokenizer returns: with the
first row as header, the output is, in input order, exactly one record per
later row that is valid (at least five fields, field 0 an integer, field 3 a
decimal number, field 4 a date, each trimmed); a record carries the parsed
fields of its row; and the contribution of a row does not depend on the rows
before or after it. -/
theorem parseRecords_is_filter {F : Type} (fl : Float64Lib F) (header : List String)
    (rows : List (List String)) :
    parseRecords fl (header :: rows) = rows.filterMap (parseRecord fl) ∧
    (∀ row, (parseRecord fl row).isSome ↔ validRow fl row) ∧
    (∀ row p, parseRecord fl row = some p →
      strconv.Atoi (strings.TrimSpace (row.getD 0 "")) = some p.ID ∧
      p.Name = strings.TrimSpace (row.getD 1 "") ∧
      p.Category = strings.TrimSpace (row.getD 2 "") ∧
      fl.ParseFloat (strings.TrimSpace (row.getD 3 "")) = some p.Price ∧
      time.Parse (strings.TrimSpace (row.getD 4 "")) = some p.CreateDate) ∧
    (∀ before row after, rows = before ++ row :: after →
      parseRecords fl (header :: rows) =
        parseRecords fl (header :: before) ++ (parseRecord fl row).toList ++
          parseRecords fl (header :: after)) := by
  refine ⟨parseRecords_cons fl header rows, parseRecord_isSome_iff fl, ?_, ?_⟩
  · intro row p h
    exact (parseRecord_fields fl row p h).2
  · intro before row after hrows
    subst hrows
    simp only [parseRecords_cons, List.filterMap_append, List.filterMap_cons]
    cases parseRecord fl row <;> simp

/-! ## Archive extractors -/

theorem HasSuffix_iff (s suffix : String) :
    strings.HasSuffix s suffix = true ↔ ∃ stem : String, s = stem ++ suffix := by
  unfold strings.HasSuffix
  rw [List.isSuffixOf_iff_suffix]
  constructor
  · rintro ⟨t, ht⟩
    refine ⟨String.mk t, ?_⟩
    apply String.ext
    simp [String.data_append, ht]
  · rintro ⟨stem, rfl⟩
    exact ⟨stem.data, by simp [String.data_append]⟩

theorem extractZipLoop_first {F : Type} (fl : Float64Lib F) (before : List (String × String))
    (name data : String) (after : List (String × String))
    (hbefore : ∀ m ∈ before, strings.HasSuffix m.1 ".csv" = false)
    (hname : strings.HasSuffix name ".csv" = true) :
    extractZipLoop fl (asMembers (before ++ (name, data) :: after)) = parseCSV fl data := by
  induction before with
  | nil => simp [asMembers, extractZipLoop, hname]
  | cons m rest ih =>
      have hm : strings.HasSuffix m.1 ".csv" = false := hbefore m (List.mem_cons_self _ _)
      have hrest : ∀ x ∈ rest, strings.HasSuffix x.1 ".csv" = false :=
        fun x hx => hbefore x (List.mem_cons_of_mem _ hx)
      have := ih hrest
      simp only [asMembers, List.map_append, List.map_cons] at this
      simp [asMembers, extractZipLoop, hm, this]

theorem extractTarLoop_first {F : Type} (fl : Float64Lib F) (broken : Bool)
    (before : List (String × String))
    (name data : String) (after : List (String × String))
    (hbefore : ∀ m ∈ before, strings.HasSuffix m.1 ".csv" = false)
    (hname : strings.HasSuffix name ".csv" = true) :
    extractTarLoop fl broken (asMembers (before ++ (name, data) :: after)) = parseCSV fl data := by
  induction before with
  | nil => simp [asMembers, extractTarLoop, hname]
  | cons m rest ih =>
      have hm : strings.HasSuffix m.1 ".csv" = false := hbefore m (List.mem_cons_self _ _)
      have hrest : ∀ x ∈ rest, strings.HasSuffix x.1 ".csv" = false :=
        fun x hx => hbefore x (List.mem_cons_of_mem _ hx)
      have := ih hrest
      simp only [asMembers, List.map_append, List.map_cons] at this
      simp [asMembers, extractTarLoop, hm, this]

theorem extractZipLoop_none {F : Type} (fl : Float64Lib F) (ms : List Member)
    (hnone : ∀ m ∈ ms, strings.HasSuffix m.Name ".csv" = false) :
    extractZipLoop fl ms = .ok [] := by
  induction ms with
  | nil => simp [extractZipLoop]
  | cons m rest ih =>
      have hm := hnone m (List.mem_cons_self _ _)
      simp [extractZipLoop, hm, ih (fun x hx => hnone x (List.mem_cons_of_mem _ hx))]

theorem extractTarLoop_none {F : Type} (fl : Float64Lib F) (ms : List Member)
    (hnone : ∀ m ∈ ms, strings.HasSuffix m.Name ".csv" = false) :
    extractTarLoop fl false ms = .ok [] := by
  induction ms with
  | nil => simp [extractTarLoop]
  | cons m rest ih =>
      have hm := hnone m (List.mem_cons_self _ _)
      simp [extractTarLoop, hm, ih (fun x hx => hnone x (List.mem_cons_of_mem _ hx))]

/-- C4. Archive extractor over an archive given as an ordered list of (name,
bytes), with staging of the upload succeeding: both `extractZip` and
`extractTar` return what `parseCSV` returns on the first member whose name
ends in `.csv`, whatever the members before it (none of which matches) and
after it are; with no matching member both return an empty sequence and no
error; the match is the exact suffix, so `DATA.CSV` does not match. -/
theorem extract_first_csv_member {F : Type} (fl : Float64Lib F) (env : Faults)
    (henv : env.stagingFails = false) (ms : List (String × String))
    (otherZip : Option (List Member)) (otherTar : TarStream) :
    (∀ before name data after, ms = before ++ (name, data) :: after →
      (∀ m ∈ before, strings.HasSuffix m.1 ".csv" = false) →
      strings.HasSuffix name ".csv" = true →
        extractZip fl env { zip := some (asMembers ms), tar := otherTar } = parseCSV fl data ∧
        extractTar fl env { zip := otherZip, tar := ⟨asMembers ms, false⟩ } = parseCSV fl data) ∧
    ((∀ m ∈ ms, strings.HasSuffix m.1 ".csv" = false) →
        extractZip fl env { zip := some (asMembers ms), tar := otherTar } = .ok [] ∧
        extractTar fl env { zip := otherZip, tar := ⟨asMembers ms, false⟩ } = .ok []) ∧
    (∀ name, strings.HasSuffix name ".csv" = true ↔ ∃ stem : String, name = stem ++ ".csv") ∧
    strings.HasSuffix "DATA.CSV" ".csv" = false := by
  refine ⟨?_, ?_, fun name => HasSuffix_iff name ".csv", by decide⟩
  · intro before name data after hms hbefore hname
    subst hms
    constructor
    · simp only [extractZip, henv]
      exact extractZipLoop_first fl before name data after hbefore hname
    · simp only [extractTar, henv]
      exact extractTarLoop_first fl false before name data after hbefore hname
  · intro hnone
    have hmem : ∀ m ∈ asMembers ms, strings.HasSuffix m.Name ".csv" = false := by
      intro m hm
      simp only [asMembers, List.mem_map] at hm
      obtain ⟨x, hx, rfl⟩ := hm
      exact hnone x hx
    constructor
    · simp only [extractZip, henv]
      exact extractZipLoop_none fl _ hmem
    · simp only [extractTar, henv]
      exact extractTarLoop_none fl _ hmem

theorem extract_first_csv_member_witness :
    extractZip centsFloat noFaults { zip := some (asMembers sampleArchive), tar := ⟨[], true⟩ }
        = parseCSV centsFloat sampleCsv ∧
      extractTar centsFloat noFaults { zip := none, tar := ⟨asMembers sampleArchive, false⟩ }
        = parseCSV centsFloat sampleCsv ∧
      parseCSV centsFloat sampleCsv =
        .ok [{ ID := 1, Name := "Widget", Category := "Tools", Price := 999,
               CreateDate := ⟨2024, 1, 15⟩ }] :=
  have h := (extract_first_csv_member centsFloat noFaults rfl sampleArchive none ⟨[], true⟩).1
    [("readme.txt", "hello")] "data.csv" sampleCsv
    [("later.csv", "a,b\n\"x"), ("DATA.CSV", "ignored")] rfl (by decide) (by decide)
  ⟨h.1, h.2, by decide⟩

/-! ## Transactional insert -/

theorem storedRows_length {F : Type} (fl : Float64Lib F) (prices : List (Price F)) :
    ∀ lastId : Int, (∀ p ∈ prices, (columnValues fl p).isSome = true) →
      (storedRows fl lastId prices).length = prices.length := by
  induction prices with
  | nil => intro lastId _; rfl
  | cons p rest ih =>
      intro lastId hok
      obtain ⟨v, hv⟩ := Option.isSome_iff_exists.1 (hok p (List.mem_cons_self _ _))
      obtain ⟨name, category, price, createDate⟩ := v
      simp [storedRows, hv, ih (lastId + 1) (fun q hq => hok q (List.mem_cons_of_mem _ hq))]

theorem columnValues_some {F : Type} (fl : Float64Lib F) (p : Price F) (name category : String)
    (price : F) (createDate : Date)
    (h : columnValues fl p = some (name, category, price, createDate)) :
    varchar255 p.Name = some name ∧ varchar255 p.Category = some category ∧
    fl.toDecimal p.Price = some price ∧ createDate = p.CreateDate := by
  unfold columnValues at h
  cases h1 : varchar255 p.Name with
  | none => simp [h1] at h
  | some n =>
      cases h2 : varchar255 p.Category with
      | none => simp [h1, h2] at h
      | some c =>
          cases h3 : fl.toDecimal p.Price with
          | none => simp [h1, h2, h3] at h
          | some d =>
              simp only [h1, h2, h3, Option.some.injEq, Prod.mk.injEq] at h
              obtain ⟨rfl, rfl, rfl, rfl⟩ := h
              exact ⟨rfl, rfl, rfl, rfl⟩

theorem storedRows_get {F : Type} (fl : Float64Lib F) (prices : List (Price F)) :
    ∀ (lastId : Int) (i : Nat) (p : Price F),
      (∀ q ∈ prices, (columnValues fl q).isSome = true) → prices[i]? = some p →
      ∃ name category price, varchar255 p.Name = some name ∧
        varchar255 p.Category = some category ∧ fl.toDecimal p.Price = some price ∧
        (storedRows fl lastId prices)[i]? =
          some { id := lastId + 1 + i, name := name, category := category, price := price,
                 create_date := p.CreateDate } := by
  induction prices with
  | nil => intro lastId i p _ hp; simp at hp
  | cons q rest ih =>
      intro lastId i p hok hp
      obtain ⟨v, hv⟩ := Option.isSome_iff_exists.1 (hok q (List.mem_cons_self _ _))
      obtain ⟨name, category, price, createDate⟩ := v
      obtain ⟨h1, h2, h3, h4⟩ := columnValues_some fl q name category price createDate hv
      cases i with
      | zero =>
          simp only [List.getElem?_cons_zero, Option.some.injEq] at hp
          subst hp
          exact ⟨name, category, price, h1, h2, h3, by simp [storedRows, hv, h4]⟩
      | succ k =>
          simp only [List.getElem?_cons_succ] at hp
          obtain ⟨n2, c2, p2, g1, g2, g3, g4⟩ :=
            ih (lastId + 1) k p (fun x hx => hok x (List.mem_cons_of_mem _ hx)) hp
          refine ⟨n2, c2, p2, g1, g2, g3, ?_⟩
          simp only [storedRows, hv, List.getElem?_cons_succ, g4, Option.some.injEq,
            Row.mk.injEq, and_true, true_and]
          push_cast
          omega

theorem insertLoop_ok {F : Type} (fl : Float64Lib F) (env : Faults) (prices : List (Price F)) :
    ∀ (i : Nat) (tx : DB F) (count : Nat),
      (∀ (j : Nat) (p : Price F), prices[j]? = some p →
        env.execFails (i + j) = false ∧ (columnValues fl p).isSome = true) →
      insertLoop fl env prices i tx count =
        .ok ({ rows := tx.rows ++ storedRows fl tx.lastId prices,
               lastId := tx.lastId + prices.length }, count + prices.length) := by
  induction prices with
  | nil => intro i tx count _; simp [insertLoop, storedRows]
  | cons p rest ih =>
      intro i tx count hok
      obtain ⟨h0, hcol⟩ := hok 0 p (by simp)
      have h0 : env.execFails i = false := by simpa using h0
      obtain ⟨v, hv⟩ := Option.isSome_iff_exists.1 hcol
      obtain ⟨name, category, price, createDate⟩ := v
      have hrest : ∀ j q, rest[j]? = some q →
          env.execFails (i + 1 + j) = false ∧ (columnValues fl q).isSome = true := by
        intro j q hq
        have := hok (j + 1) q (by simpa using hq)
        rwa [show i + (j + 1) = i + 1 + j by omega] at this
      rw [insertLoop, if_neg (by simp [h0])]
      simp only [execInsert, hv]
      rw [ih (i + 1) _ (count + 1) hrest]
      simp only [storedRows, hv, List.length_cons, List.append_assoc, List.singleton_append,
        Nat.cast_add, Nat.cast_one]
      congr 2
      · congr 1
        omega
      · omega

theorem insertLoop_error {F : Type} (fl : Float64Lib F) (env : Faults)
    (prices : List (Price F)) :
    ∀ (i : Nat) (tx : DB F) (count : Nat),
      (∃ (j : Nat) (p : Price F), prices[j]? = some p ∧
        (env.execFails (i + j) = true ∨ columnValues fl p = none)) →
      ∃ tx1, insertLoop fl env prices i tx count = .error tx1 := by
  induction prices with
  | nil => intro i tx count ⟨j, p, hp, _⟩; simp at hp
  | cons q rest ih =>
      intro i tx count ⟨j, p, hp, hfail⟩
      by_cases h0 : env.execFails i = true
      · exact ⟨tx, by simp [insertLoop, h0]⟩
      · cases hv : columnValues fl q with
        | none => exact ⟨tx, by simp [insertLoop, h0, execInsert, hv]⟩
        | some v =>
            obtain ⟨name, category, price, createDate⟩ := v
            cases j with
            | zero =>
                simp only [List.getElem?_cons_zero, Option.some.injEq] at hp
                subst hp
                rcases hfail with h | h
                · exact absurd (by simpa using h) h0
                · rw [hv] at h; exact absurd h (by simp)
            | succ k =>
                simp only [List.getElem?_cons_succ] at hp
                obtain ⟨tx1, h1⟩ := ih (i + 1)
                  { rows := tx.rows ++ [{ id := tx.lastId + 1, name := name, category := category,
                                          price := price, create_date := createDate }],
                    lastId := tx.lastId + 1 } (count + 1)
                  ⟨k, p, hp, by rwa [show i + 1 + k = i + (k + 1) by omega]⟩
                exact ⟨tx1, by simp [insertLoop, h0, execInsert, hv, h1]⟩

theorem insertLoop_count {F : Type} (fl : Float64Lib F) (env : Faults)
    (prices : List (Price F)) :
    ∀ (i : Nat) (tx tx1 : DB F) (count n : Nat),
      insertLoop fl env prices i tx count = .ok (tx1, n) → n = count + prices.length := by
  induction prices with
  | nil =>
      intro i tx tx1 count n h
      simp only [insertLoop, Except.ok.injEq, Prod.mk.injEq] at h
      simp [h.2]
  | cons q rest ih =>
      intro i tx tx1 count n h
      rw [insertLoop] at h
      split at h
      · exact absurd h (by simp)
      · split at h
        · exact absurd h (by simp)
        · have := ih _ _ _ _ _ h
          simp only [List.length_cons]
          omega

theorem insertPrices_count {F : Type} (fl : Float64Lib F) (env : Faults) (db : DB F)
    (prices : List (Price F)) (h : (insertPrices fl env db prices).1.2 = none) :
    (insertPrices fl env db prices).1.1 = prices.length := by
  unfold insertPrices at h ⊢
  split at h
  · simp at h
  · rename_i hb
    simp only [hb]
    cases hloop : insertLoop fl env prices 0 db 0 with
    | error tx => simp [hloop] at h
    | ok r =>
        obtain ⟨tx1, n⟩ := r
        have hn := insertLoop_count fl env prices 0 db tx1 0 n hloop
        simp only [hloop] at h ⊢
        split at h
        · simp at h
        · rename_i hc
          simp only [hc]
          simp [hn]

/-- C2, refuted as stated: with no fault, a table holding key 1 and a batch
of three records with ids 7, 7, 9, every insert and the commit succeed and
the call returns 3 with no error, but the rows added carry the keys 2, 3, 4
of the sequence, not the records' ids: the table is not the old table plus
exactly the batch's records. -/
theorem inserted_rows_get_new_keys :
    (insertPrices centsFloat noFaults sampleDB sampleBatch).1 = (3, none) ∧
    (insertPrices centsFloat noFaults sampleDB sampleBatch).2.rows.map (fun r => r.id) =
      [1, 2, 3, 4] ∧
    sampleBatch.map (fun p => p.ID) = [7, 7, 9] ∧
    ¬ specInsertSuccess centsFloat noFaults sampleDB sampleBatch := by
  refine ⟨by decide, by decide, by decide, ?_⟩
  intro h
  exact absurd h.2 (by decide)

/-- C2, amended. `insertPrices` is all-or-nothing: when the transaction
starts, every insert succeeds (the environment fails none and the columns
accept every record) and the commit succeeds, it returns the batch length
with no error and the table is the old table followed by one row per record
of the batch, in batch order: the row at position `i` has the next key of
the sequence, `lastId + 1 + i`, instead of the record's id, the record's
name and category as `VARCHAR(255)` stores them, its price as
`DECIMAL(10,2)` stores it and its create date. When the start, an insert at
any position or the commit fails, it returns count 0 with an error and the
committed rows are the old ones. -/
theorem insertPrices_all_or_nothing {F : Type} (fl : Float64Lib F) (env : Faults) (db : DB F)
    (prices : List (Price F)) :
    (env.beginFails = false →
      (∀ (i : Nat) (p : Price F), prices[i]? = some p →
        env.execFails i = false ∧ (columnValues fl p).isSome = true) →
      env.commitFails = false →
        (insertPrices fl env db prices).1 = (prices.length, none) ∧
        (insertPrices fl env db prices).2.rows = db.rows ++ storedRows fl db.lastId prices ∧
        (storedRows fl db.lastId prices).length = prices.length ∧
        (∀ (i : Nat) (p : Price F), prices[i]? = some p →
          ∃ name category price, varchar255 p.Name = some name ∧
            varchar255 p.Category = some category ∧ fl.toDecimal p.Price = some price ∧
            (storedRows fl db.lastId prices)[i]? =
              some { id := db.lastId + 1 + i, name := name, category := category,
                     price := price, create_date := p.CreateDate })) ∧
    ((env.beginFails = true ∨
        (∃ (i : Nat) (p : Price F), prices[i]? = some p ∧ (env.execFails i = true ∨ columnValues fl p = none)) ∨
        env.commitFails = true) →
        (insertPrices fl env db prices).1.1 = 0 ∧
        (insertPrices fl env db prices).1.2 ≠ none ∧
        (insertPrices fl env db prices).2.rows = db.rows) := by
  constructor
  · intro hbegin hexec hcommit
    have hloop := insertLoop_ok fl env prices 0 db 0 (by simpa using hexec)
    have hcols : ∀ q ∈ prices, (columnValues fl q).isSome = true := by
      intro q hq
      obtain ⟨i, hi⟩ := List.getElem?_of_mem hq
      exact (hexec i q hi).2
    refine ⟨?_, ?_, storedRows_length fl prices db.lastId hcols, ?_⟩
    · simp [insertPrices, hbegin, hloop, hcommit]
    · simp [insertPrices, hbegin, hloop, hcommit]
    · intro i p hp
      exact storedRows_get fl prices db.lastId i p hcols hp
  · intro hfail
    by_cases hbegin : env.beginFails = true
    · simp [insertPrices, hbegin]
    · by_cases hexec : ∃ (i : Nat) (p : Price F), prices[i]? = some p ∧
          (env.execFails i = true ∨ columnValues fl p = none)
      · obtain ⟨tx1, h1⟩ := insertLoop_error fl env prices 0 db 0 (by simpa using hexec)
        simp [insertPrices, hbegin, h1]
      · have hcommit : env.commitFails = true := by
          rcases hfail with h | h | h
          · exact absurd h hbegin
          · exact absurd h hexec
          · exact h
        have hall : ∀ (j : Nat) (p : Price F), prices[j]? = some p →
            env.execFails (0 + j) = false ∧ (columnValues fl p).isSome = true := by
          intro j p hp
          constructor
          · have : ¬ env.execFails j = true := fun h => hexec ⟨j, p, hp, Or.inl h⟩
            simpa using this
          · cases hv : columnValues fl p with
            | none => exact absurd ⟨j, p, hp, Or.inr hv⟩ hexec
            | some v => rfl
        have hloop := insertLoop_ok fl env prices 0 db 0 hall
        simp [insertPrices, hbegin, hloop, hcommit]

theorem insertPrices_all_or_nothing_witness :
    ((insertPrices centsFloat noFaults sampleDB sampleBatch).1 = (3, none) ∧
      (insertPrices centsFloat noFaults sampleDB sampleBatch).2.rows =
        sampleDB.rows ++ storedRows centsFloat 1 sampleBatch) ∧
    ((insertPrices centsFloat { noFaults with execFails := fun i => i == 2 } sampleDB
        sampleBatch).1.1 = 0 ∧
      (insertPrices centsFloat { noFaults with execFails := fun i => i == 2 } sampleDB
        sampleBatch).2.rows = sampleDB.rows) := by
  have hcols : ∀ (i : Nat) (p : Price Int), sampleBatch[i]? = some p →
      noFaults.execFails i = false ∧ (columnValues centsFloat p).isSome = true := by
    intro i p hp
    have hmem : p ∈ sampleBatch := List.getElem?_mem hp
    refine ⟨rfl, ?_⟩
    simp only [sampleBatch, List.mem_cons, List.mem_singleton, List.not_mem_nil, or_false] at hmem
    rcases hmem with rfl | rfl | rfl <;> decide
  have hok := (insertPrices_all_or_nothing centsFloat noFaults sampleDB sampleBatch).1 rfl
    hcols rfl
  have hfail := (insertPrices_all_or_nothing centsFloat
    { noFaults with execFails := fun i => i == 2 } sampleDB sampleBatch).2
    (Or.inr (Or.inl ⟨2, _, rfl, Or.inl rfl⟩))
  exact ⟨⟨hok.1, hok.2.1⟩, ⟨hfail.1, hfail.2.2⟩⟩

/-! ## Upload handler -/

theorem extractZipLoop_ok {F : Type} (fl : Float64Lib F) (ms : List Member)
    (prices : List (Price F)) (h : extractZipLoop fl ms = .ok prices) :
    (firstCsv ms = none ∧ prices = []) ∨
    (∃ m rc, firstCsv ms = some m ∧ m.content = some rc ∧ parseCSV fl rc = .ok prices) := by
  induction ms with
  | nil =>
      left
      simp only [extractZipLoop, Except.ok.injEq] at h
      exact ⟨rfl, h.symm⟩
  | cons m rest ih =>
      by_cases hm : strings.HasSuffix m.Name ".csv" = true
      · right
        rw [extractZipLoop, if_pos hm] at h
        cases hc : m.content with
        | none => rw [hc] at h; exact absurd h (by simp)
        | some rc =>
            rw [hc] at h
            exact ⟨m, rc, by simp [firstCsv, List.find?, hm], hc, h⟩
      · rw [extractZipLoop, if_neg hm] at h
        have hf : firstCsv (m :: rest) = firstCsv rest := by
          simp [firstCsv, List.find?, hm]
        rw [hf]
        exact ih h

theorem extractTarLoop_ok {F : Type} (fl : Float64Lib F) (broken : Bool) (ms : List Member)
    (prices : List (Price F)) (h : extractTarLoop fl broken ms = .ok prices) :
    (firstCsv ms = none ∧ prices = []) ∨
    (∃ m rc, firstCsv ms = some m ∧ m.content = some rc ∧ parseCSV fl rc = .ok prices) := by
  induction ms with
  | nil =>
      left
      cases broken with
      | true => simp [extractTarLoop] at h
      | false =>
          simp only [extractTarLoop, Bool.false_eq_true, if_false, Except.ok.injEq] at h
          exact ⟨rfl, h.symm⟩
  | cons m rest ih =>
      by_cases hm : strings.HasSuffix m.Name ".csv" = true
      · right
        rw [extractTarLoop, if_pos hm] at h
        cases hc : m.content with
        | none => rw [hc] at h; exact absurd h (by simp)
        | some rc =>
            rw [hc] at h
            exact ⟨m, rc, by simp [firstCsv, List.find?, hm], hc, h⟩
      · rw [extractTarLoop, if_neg hm] at h
        have hf : firstCsv (m :: rest) = firstCsv rest := by
          simp [firstCsv, List.find?, hm]
        rw [hf]
        exact ih h

theorem storeAndReply_ok {F : Type} (fl : Float64Lib F) (env : Faults) (db : DB F)
    (prices : List (Price F)) (calls : List Call)
    (h : (storeAndReply fl env db prices calls).status = StatusOK) :
    ∃ stats, (storeAndReply fl env db prices calls).reply = Reply.json stats ∧
      stats.TotalItems = prices.length := by
  have hcount := insertPrices_count fl env db prices
  unfold storeAndReply at h ⊢
  cases hins : insertPrices fl env db prices with
  | mk r db1 =>
      obtain ⟨n, e⟩ := r
      rw [hins] at h hcount
      cases e with
      | some err => simp [StatusOK, StatusInternalServerError] at h
      | none =>
          have hn : n = prices.length := hcount rfl
          subst hn
          by_cases hq : env.statsQueryFails = true
          · simp [getStats, hq, StatusOK, StatusInternalServerError] at h
          · simp [getStats, hq]

theorem postPricesHandler_zip {F : Type} (fl : Float64Lib F) (env : Faults) (db : DB F)
    (type : Option String) (file : Upload)
    (hsel : type = none ∨ type = some "" ∨ type = some "zip") :
    postPricesHandler fl env db { type := type, form := Form.file file } =
      match extractZip fl env file with
      | .error _ =>
          { status := StatusInternalServerError, reply := Reply.zipError, db := db,
            calls := [Call.extractZip] }
      | .ok prices => storeAndReply fl env db prices [Call.extractZip] := by
  rcases hsel with rfl | rfl | rfl <;> simp [postPricesHandler]

theorem postPricesHandler_tar {F : Type} (fl : Float64Lib F) (env : Faults) (db : DB F)
    (file : Upload) :
    postPricesHandler fl env db { type := some "tar", form := Form.file file } =
      match extractTar fl env file with
      | .error _ =>
          { status := StatusInternalServerError, reply := Reply.tarError, db := db,
            calls := [Call.extractTar] }
      | .ok prices => storeAndReply fl env db prices [Call.extractTar] := by
  simp [postPricesHandler]

theorem postPricesHandler_other {F : Type} (fl : Float64Lib F) (env : Faults) (db : DB F)
    (t : String) (form : Form) (hempty : t ≠ "") (hzip : t ≠ "zip") (htar : t ≠ "tar") :
    postPricesHandler fl env db { type := some t, form := form } =
      match form with
      | Form.malformed =>
          { status := StatusBadRequest, reply := Reply.formError, db := db, calls := [] }
      | Form.noFile =>
          { status := StatusBadRequest, reply := Reply.fileError, db := db, calls := [] }
      | Form.file _ =>
          { status := StatusBadRequest, reply := Reply.unsupportedType, db := db, calls := [] } := by
  cases form <;> simp [postPricesHandler, hempty, hzip, htar]

/-- C3. In every upload request answered with success, `total_items` is the
number of records extraction produced: the length of what `parseCSV` returned
for the first CSV member of the selected archive (zero when the archive has
no CSV member). For the header plus a valid row and a row with id `x` it is 1,
although the CSV has two data rows and the table afterwards holds two rows. -/
theorem total_items_counts_parsed_records :
    (∀ {F : Type} (fl : Float64Lib F) (env : Faults) (db : DB F) (r : Request),
      (postPricesHandler fl env db r).status = StatusOK →
      ∃ file prices stats, r.form = Form.file file ∧
        (postPricesHandler fl env db r).reply = Reply.json stats ∧
        stats.TotalItems = prices.length ∧
        ((firstCsv (archiveMembers r.type file) = none ∧ prices = []) ∨
         (∃ m rc, firstCsv (archiveMembers r.type file) = some m ∧ m.content = some rc ∧
            parseCSV fl rc = .ok prices))) ∧
    csvReadAll sampleCsv =
      .ok [["id", "name", "category", "price", "create_date"],
           ["1", "Widget", "Tools", "9.99", "2024-01-15"],
           ["x", "Bad", "Tools", "1.00", "2024-01-16"]] ∧
    (postPricesHandler centsFloat noFaults { rows := [], lastId := 0 } sampleRequest).reply =
      Reply.json { TotalItems := 1, TotalCategories := 1, TotalPrice := (999 : Int) } ∧
    (postPricesHandler centsFloat noFaults sampleDB sampleRequest).reply =
      Reply.json { TotalItems := 1, TotalCategories := 2, TotalPrice := (1099 : Int) } ∧
    (postPricesHandler centsFloat noFaults sampleDB sampleRequest).db.rows.length = 2 := by
  refine ⟨?_, by decide, by decide, by decide, by decide⟩
  intro F fl env db r hstatus
  obtain ⟨type, form⟩ := r
  cases form with
  | malformed => simp [postPricesHandler, StatusOK, StatusBadRequest] at hstatus
  | noFile => simp [postPricesHandler, StatusOK, StatusBadRequest] at hstatus
  | file file =>
      by_cases hsel : type = none ∨ type = some "" ∨ type = some "zip"
      · have htype : type ≠ some "tar" := by
          rcases hsel with rfl | rfl | rfl <;> simp
        rw [postPricesHandler_zip fl env db type file hsel] at hstatus ⊢
        cases hx : extractZip fl env file with
        | error e => simp [hx, StatusOK, StatusInternalServerError] at hstatus
        | ok prices =>
            simp only [hx] at hstatus ⊢
            obtain ⟨stats, hreply, hcount⟩ := storeAndReply_ok fl env db prices _ hstatus
            refine ⟨file, prices, stats, rfl, hreply, hcount, ?_⟩
            simp only [archiveMembers, htype, if_false]
            unfold extractZip at hx
            split at hx
            · simp at hx
            · cases hz : file.zip with
              | none => simp [hz] at hx
              | some files =>
                  simp only [hz] at hx
                  simpa using extractZipLoop_ok fl files prices hx
      · by_cases htar : type = some "tar"
        · subst htar
          rw [postPricesHandler_tar fl env db file] at hstatus ⊢
          cases hx : extractTar fl env file with
          | error e => simp [hx, StatusOK, StatusInternalServerError] at hstatus
          | ok prices =>
              simp only [hx] at hstatus ⊢
              obtain ⟨stats, hreply, hcount⟩ := storeAndReply_ok fl env db prices _ hstatus
              refine ⟨file, prices, stats, rfl, hreply, hcount, ?_⟩
              simp only [archiveMembers, if_true]
              unfold extractTar at hx
              split at hx
              · simp at hx
              · exact extractTarLoop_ok fl _ _ prices hx
        · cases type with
          | none => simp at hsel
          | some t =>
              have h1 : t ≠ "" := fun h => hsel (Or.inr (Or.inl (by rw [h])))
              have h2 : t ≠ "zip" := fun h => hsel (Or.inr (Or.inr (by rw [h])))
              have h3 : t ≠ "tar" := fun h => htar (by rw [h])
              rw [postPricesHandler_other fl env db t _ h1 h2 h3] at hstatus
              simp [StatusOK, StatusBadRequest] at hstatus

theorem total_items_counts_parsed_records_witness :
    ∃ stats : Response Int,
      (postPricesHandler centsFloat noFaults sampleDB sampleRequest).reply = Reply.json stats ∧
      stats.TotalItems = 1 := by
  obtain ⟨_, prices, stats, _, hreply, _, _⟩ :=
    total_items_counts_parsed_records.1 centsFloat noFaults sampleDB sampleRequest (by decide)
  refine ⟨stats, hreply, ?_⟩
  have hd : (postPricesHandler centsFloat noFaults sampleDB sampleRequest).reply =
      Reply.json { TotalItems := 1, TotalCategories := 2, TotalPrice := (1099 : Int) } := by
    decide
  rw [hd] at hreply
  have hs := Reply.json.inj hreply
  rw [← hs]

/-- C8. An upload request whose `type` parameter is present and is neither
empty, `zip` nor `tar` is answered with bad-request, makes no call to
`extractZip`, `extractTar`, `insertPrices` or `getStats`, and leaves the
database as it was; an absent or empty `type` is handled exactly as `zip`. -/
theorem unsupported_type_is_bad_request {F : Type} (fl : Float64Lib F) (env : Faults)
    (db : DB F) (t : String) (form : Form)
    (hempty : t ≠ "") (hzip : t ≠ "zip") (htar : t ≠ "tar") :
    (postPricesHandler fl env db { type := some t, form := form }).status = StatusBadRequest ∧
    (postPricesHandler fl env db { type := some t, form := form }).calls = [] ∧
    (postPricesHandler fl env db { type := some t, form := form }).db = db ∧
    postPricesHandler fl env db { type := none, form := form } =
      postPricesHandler fl env db { type := some "zip", form := form } ∧
    postPricesHandler fl env db { type := some "", form := form } =
      postPricesHandler fl env db { type := some "zip", form := form } := by
  refine ⟨?_, ?_, ?_, ?_, ?_⟩
  · rw [postPricesHandler_other fl env db t form hempty hzip htar]
    cases form <;> rfl
  · rw [postPricesHandler_other fl env db t form hempty hzip htar]
    cases form <;> rfl
  · rw [postPricesHandler_other fl env db t form hempty hzip htar]
    cases form <;> rfl
  · cases form <;> simp [postPricesHandler]
  · cases form <;> simp [postPricesHandler]

theorem unsupported_type_is_bad_request_witness :
    (postPricesHandler centsFloat noFaults sampleDB
        { type := some "rar", form := sampleRequest.form }).status = StatusBadRequest ∧
    (postPricesHandler centsFloat noFaults sampleDB
        { type := some "rar", form := sampleRequest.form }).calls = [] ∧
    (postPricesHandler centsFloat noFaults sampleDB
        { type := some "rar", form := sampleRequest.form }).db = sampleDB :=
  have h := unsupported_type_is_bad_request centsFloat noFaults sampleDB "rar" sampleRequest.form
    (by decide) (by decide) (by decide)
  ⟨h.1, h.2.1, h.2.2.1⟩

/-! ## Records the row parser produces -/

theorem dropWhile_cons_of_neg (cs : List Char) (c : Char) (hc : unicode.IsSpace c = false) :
    (c :: cs).dropWhile unicode.IsSpace = c :: cs := by
  simp [List.dropWhile, hc]

theorem trimChars_idem (cs : List Char) : trimChars (trimChars cs) = trimChars cs := by
  unfold trimChars
  have hpre : (cs.dropWhile unicode.IsSpace).rdropWhile unicode.IsSpace <+:
      cs.dropWhile unicode.IsSpace := List.rdropWhile_prefix _ _
  have hdrop : ((cs.dropWhile unicode.IsSpace).rdropWhile unicode.IsSpace).dropWhile
      unicode.IsSpace = (cs.dropWhile unicode.IsSpace).rdropWhile unicode.IsSpace := by
    cases ht : (cs.dropWhile unicode.IsSpace).rdropWhile unicode.IsSpace with
    | nil => rfl
    | cons x rest =>
        rw [ht] at hpre
        obtain ⟨tail, htail⟩ := hpre
        have hne : cs.dropWhile unicode.IsSpace ≠ [] := by
          rw [← htail]; simp
        have hhead := List.head_dropWhile_not unicode.IsSpace cs hne
        have hx : (cs.dropWhile unicode.IsSpace).head hne = x := by
          simp [← htail]
        rw [hx] at hhead
        exact dropWhile_cons_of_neg rest x hhead
  rw [hdrop, List.rdropWhile_idempotent]

theorem TrimSpace_idem (s : String) :
    strings.TrimSpace (strings.TrimSpace s) = strings.TrimSpace s := by
  simp [strings.TrimSpace, trimChars_idem]

/-- C10, refuted as stated: the row `1, ,,-1.50,2024-01-15` passes the row
parser and gives a record with an empty name, an empty category and a
negative price. -/
theorem parsed_record_may_be_empty_or_negative :
    parseCSV centsFloat "id,name,category,price,create_date\n1, ,,-1.50,2024-01-15\n" =
      .ok [{ ID := 1, Name := "", Category := "", Price := (-150 : Int), CreateDate := ⟨2024, 1, 15⟩ }] ∧
    ¬ specRecordInvariant
        { ID := 1, Name := "", Category := "", Price := (-150 : Int), CreateDate := ⟨2024, 1, 15⟩ } := by
  refine ⟨by decide, ?_⟩
  intro h
  exact h.1 (by decide)

/-- C10, amended. Every record `parseCSV` outputs comes from a data row of
the input with at least five fields; its name and category are fields 1 and 2
of that row trimmed, so they carry no leading or trailing white space (and
may be empty); its price is the value field 3 parses to, of either sign. -/
theorem parsed_record_fields_are_trimmed {F : Type} (fl : Float64Lib F) (r : String)
    (prices : List (Price F)) (hparse : parseCSV fl r = .ok prices) :
    ∀ p ∈ prices, ∃ header rows row, csvReadAll r = .ok (header :: rows) ∧ row ∈ rows ∧
      5 ≤ row.length ∧
      p.Name = strings.TrimSpace (row.getD 1 "") ∧
      p.Category = strings.TrimSpace (row.getD 2 "") ∧
      strings.TrimSpace p.Name = p.Name ∧
      strings.TrimSpace p.Category = p.Category ∧
      fl.ParseFloat (strings.TrimSpace (row.getD 3 "")) = some p.Price := by
  intro p hp
  unfold parseCSV at hparse
  cases hread : csvReadAll r with
  | error e => rw [hread] at hparse; exact absurd hparse (by simp)
  | ok records =>
      rw [hread] at hparse
      simp only [Except.ok.injEq] at hparse
      cases records with
      | nil =>
          rw [← hparse] at hp
          simp [parseRecords] at hp
      | cons header rows =>
          rw [parseRecords_cons] at hparse
          rw [← hparse, List.mem_filterMap] at hp
          obtain ⟨row, hrow, hrec⟩ := hp
          obtain ⟨h5, _, hname, hcat, hprice, _⟩ := parseRecord_fields fl row p hrec
          refine ⟨header, rows, row, rfl, hrow, h5, hname, hcat, ?_, ?_, hprice⟩
          · rw [hname, TrimSpace_idem]
          · rw [hcat, TrimSpace_idem]

theorem parsed_record_fields_are_trimmed_witness :
    ∃ header rows row,
      csvReadAll "id,name,category,price,create_date\n1, ,,-1.50,2024-01-15\n" =
        .ok (header :: rows) ∧ row ∈ rows ∧
      5 ≤ row.length ∧
      "" = strings.TrimSpace (row.getD 1 "") ∧
      "" = strings.TrimSpace (row.getD 2 "") ∧
      strings.TrimSpace "" = "" ∧
      strings.TrimSpace "" = "" ∧
      centsFloat.ParseFloat (strings.TrimSpace (row.getD 3 "")) = some (-150 : Int) :=
  parsed_record_fields_are_trimmed centsFloat
    "id,name,category,price,create_date\n1, ,,-1.50,2024-01-15\n"
    [{ ID := 1, Name := "", Category := "", Price := (-150 : Int), CreateDate := ⟨2024, 1, 15⟩ }]
    (by decide)
    { ID := 1, Name := "", Category := "", Price := (-150 : Int), CreateDate := ⟨2024, 1, 15⟩ }
    (List.mem_singleton.2 rfl)

/-! ## Rows of another length than the header -/

/-- C5, the code at the failing input: a valid data row followed by a row of
two fields makes `ReadAll` fail with `ErrFieldCount`, so `parseCSV` returns
the error and no record, the valid row included, and the upload is answered
with an internal error. With the short row left out the same text parses to
one record. -/
theorem short_row_aborts_parseCSV :
    parseCSV centsFloat raggedCsv = .error (Err.csv CsvError.ErrFieldCount) ∧
    parseCSV centsFloat "id,name,category,price,create_date\n1,Widget,Tools,9.99,2024-01-15\n" =
      .ok [{ ID := 1, Name := "Widget", Category := "Tools", Price := 999,
             CreateDate := ⟨2024, 1, 15⟩ }] ∧
    (postPricesHandler centsFloat noFaults { rows := [], lastId := 0 }
      { type := none,
        form := Form.file
          { zip := some [{ Name := "data.csv", content := some raggedCsv }],
            tar := ⟨[], true⟩ } }).status = StatusInternalServerError := by
  refine ⟨by decide, by decide, by decide⟩

/-! ## Printing and reading back -/

theorem digitChar_props (d : Nat) (hd : d < 10) :
    isDigit (digitChar d) = true ∧ digitVal (digitChar d) = d ∧
    unicode.IsSpace (digitChar d) = false ∧ digitChar d ≠ '\r' := by
  interval_cases d <;> decide

theorem natDigitsAux_append : ∀ (fuel n : Nat) (acc : List Char),
    natDigitsAux fuel n acc = natDigitsAux fuel n [] ++ acc := by
  intro fuel
  induction fuel with
  | zero => intro n acc; simp [natDigitsAux]
  | succ fuel ih =>
      intro n acc
      by_cases hn : n < 10
      · simp [natDigitsAux, hn]
      · simp only [natDigitsAux, hn, if_false]
        rw [ih (n / 10) (digitChar (n % 10) :: acc), ih (n / 10) [digitChar (n % 10)]]
        simp

theorem natDigitsAux_fuel : ∀ (fuel fuel2 n : Nat), n < fuel → n < fuel2 →
    natDigitsAux fuel n [] = natDigitsAux fuel2 n [] := by
  intro fuel
  induction fuel with
  | zero => intro fuel2 n h; omega
  | succ fuel ih =>
      intro fuel2 n h1 h2
      cases fuel2 with
      | zero => omega
      | succ fuel2 =>
          by_cases hn : n < 10
          · simp [natDigitsAux, hn]
          · simp only [natDigitsAux, hn, if_false]
            rw [natDigitsAux_append fuel, natDigitsAux_append fuel2]
            rw [ih fuel2 (n / 10) (by omega) (by omega)]

theorem natDigits_eq (n : Nat) :
    natDigits n = if n < 10 then [digitChar n] else natDigits (n / 10) ++ [digitChar (n % 10)] := by
  by_cases hn : n < 10
  · rw [if_pos hn]
    simp [natDigits, natDigitsAux, hn]
  · rw [if_neg hn]
    show natDigitsAux (n + 1) n [] = natDigitsAux (n / 10 + 1) (n / 10) [] ++ _
    rw [natDigitsAux, if_neg hn, natDigitsAux_append,
      natDigitsAux_fuel n (n / 10 + 1) (n / 10) (by omega) (by omega)]

theorem natDigits_spec : ∀ (n : Nat),
    natDigits n ≠ [] ∧ (∀ c ∈ natDigits n, isDigit c = true) ∧ digitsValue (natDigits n) = n := by
  intro n
  induction n using Nat.strong_induction_on with
  | _ n ih =>
      rw [natDigits_eq]
      by_cases hn : n < 10
      · obtain ⟨h1, h2, _, _⟩ := digitChar_props n hn
        simp [hn, h1, digitsValue, h2]
      · obtain ⟨_, hall, hval⟩ := ih (n / 10) (by omega)
        obtain ⟨h1, h2, _, _⟩ := digitChar_props (n % 10) (by omega)
        simp only [hn, if_false]
        refine ⟨by simp, ?_, ?_⟩
        · intro c hc
          rcases List.mem_append.1 hc with h | h
          · exact hall c h
          · simp only [List.mem_singleton] at h
            rw [h]; exact h1
        · unfold digitsValue at hval ⊢
          rw [List.foldl_append, hval]
          simp only [List.foldl_cons, List.foldl_nil, h2]
          omega

theorem isDigit_not_space (c : Char) (h : isDigit c = true) : unicode.IsSpace c = false := by
  simp only [isDigit, Bool.and_eq_true, decide_eq_true_eq] at h
  simp only [unicode.IsSpace, Bool.or_eq_false_iff, Bool.and_eq_false_imp, decide_eq_true_eq,
    decide_eq_false_iff_not, beq_eq_false_iff_ne]
  omega

theorem trimChars_eq_self (cs : List Char) (h : ∀ c ∈ cs, unicode.IsSpace c = false) :
    trimChars cs = cs := by
  unfold trimChars
  have hdrop : cs.dropWhile unicode.IsSpace = cs := by
    cases cs with
    | nil => rfl
    | cons c rest => exact dropWhile_cons_of_neg rest c (h c (List.mem_cons_self _ _))
  rw [hdrop, List.rdropWhile_eq_self_iff]
  intro hne
  simp [h _ (List.getLast_mem hne)]

theorem Atoi_Itoa (i : Int) (hlo : -(2 : Int) ^ 63 ≤ i) (hhi : i < (2 : Int) ^ 63) :
    strconv.Atoi (strings.TrimSpace (strconv.Itoa i)) = some i := by
  cases i with
  | ofNat n =>
      obtain ⟨hne, hall, hval⟩ := natDigits_spec n
      have htrim : trimChars (natDigits n) = natDigits n :=
        trimChars_eq_self _ (fun c hc => isDigit_not_space c (hall c hc))
      have hparse : parseDigits (natDigits n) = some n := by
        unfold parseDigits
        have h1 : (natDigits n).isEmpty = false := by
          cases hd : natDigits n with
          | nil => exact absurd hd hne
          | cons _ _ => rfl
        have h2 : (natDigits n).all isDigit = true := List.all_eq_true.2 hall
        simp [h1, h2, hval]
      have hn : n < 2 ^ 63 := by
        have : (n : Int) < (2 : Int) ^ 63 := hhi
        exact_mod_cast this
      simp only [strconv.Itoa, strings.TrimSpace, htrim, strconv.Atoi]
      split
      · rename_i ds hds
        have := hall '-' (by rw [hds]; exact List.mem_cons_self _ _)
        exact absurd this (by decide)
      · rename_i ds hds
        have := hall '+' (by rw [hds]; exact List.mem_cons_self _ _)
        exact absurd this (by decide)
      · simp [hparse]
        omega
  | negSucc n =>
      obtain ⟨hne, hall, hval⟩ := natDigits_spec (n + 1)
      have htrim : trimChars ('-' :: natDigits (n + 1)) = '-' :: natDigits (n + 1) := by
        apply trimChars_eq_self
        intro c hc
        rcases List.mem_cons.1 hc with h | h
        · rw [h]; decide
        · exact isDigit_not_space c (hall c h)
      have hparse : parseDigits (natDigits (n + 1)) = some (n + 1) := by
        unfold parseDigits
        have h1 : (natDigits (n + 1)).isEmpty = false := by
          cases hd : natDigits (n + 1) with
          | nil => exact absurd hd hne
          | cons _ _ => rfl
        have h2 : (natDigits (n + 1)).all isDigit = true := List.all_eq_true.2 hall
        simp [h1, h2, hval]
      have hn : n + 1 ≤ 2 ^ 63 := by
        have h1 : -(2 : Int) ^ 63 ≤ Int.negSucc n := hlo
        have h2 : Int.negSucc n = -((n : Int) + 1) := Int.negSucc_eq n
        rw [h2] at h1
        have h3 : ((n + 1 : Nat) : Int) ≤ (2 : Int) ^ 63 := by push_cast; omega
        exact_mod_cast h3
      simp only [strconv.Itoa, strings.TrimSpace, htrim, strconv.Atoi, hparse, hn, if_true]
      rw [Int.negSucc_eq]
      push_cast
      rfl

theorem natDigits_length_le_two (n : Nat) (h : n < 100) : (natDigits n).length ≤ 2 := by
  rw [natDigits_eq]
  by_cases h1 : n < 10
  · simp [h1]
  · rw [if_neg h1, natDigits_eq, if_pos (by omega)]
    simp

theorem natDigits_length_le_four (n : Nat) (h : n < 10000) : (natDigits n).length ≤ 4 := by
  rw [natDigits_eq]
  by_cases h1 : n < 10
  · simp [h1]
  · rw [if_neg h1, natDigits_eq]
    by_cases h2 : n / 10 < 10
    · simp [h2]
    · rw [if_neg h2]
      have := natDigits_length_le_two (n / 10 / 10) (by omega)
      simp only [List.length_append, List.length_singleton]
      omega

theorem digitsValue_zeros (k : Nat) (ds : List Char) :
    digitsValue (List.replicate k '0' ++ ds) = digitsValue ds := by
  unfold digitsValue
  rw [List.foldl_append]
  congr 1
  induction k with
  | zero => rfl
  | succ k ih =>
      rw [List.replicate_succ, List.foldl_cons]
      exact ih

theorem padDigits_spec (w n : Nat) (hlen : (natDigits n).length ≤ w) :
    (padDigits w n).length = w ∧ (∀ c ∈ padDigits w n, isDigit c = true) ∧
    digitsValue (padDigits w n) = n := by
  obtain ⟨_, hall, hval⟩ := natDigits_spec n
  unfold padDigits
  refine ⟨?_, ?_, ?_⟩
  · simp only [List.length_append, List.length_replicate]
    omega
  · intro c hc
    rcases List.mem_append.1 hc with h | h
    · rw [(List.mem_replicate.1 h).2]; decide
    · exact hall c h
  · rw [digitsValue_zeros, hval]

theorem padDigits_digits (w n : Nat) : ∀ c ∈ padDigits w n, isDigit c = true := by
  intro c hc
  unfold padDigits at hc
  rcases List.mem_append.1 hc with h | h
  · rw [(List.mem_replicate.1 h).2]; decide
  · exact (natDigits_spec n).2.1 c h

theorem Format_chars (d : Date) : ∀ c ∈ (time.Format d).data, isDigit c = true ∨ c = '-' := by
  intro c hc
  have hdata : (time.Format d).data =
      (padDigits 4 d.year ++ ('-' :: padDigits 2 d.month)) ++ ('-' :: padDigits 2 d.day) := rfl
  rw [hdata] at hc
  rcases List.mem_append.1 hc with h | h
  · rcases List.mem_append.1 h with h | h
    · exact Or.inl (padDigits_digits _ _ c h)
    · rcases List.mem_cons.1 h with h | h
      · exact Or.inr h
      · exact Or.inl (padDigits_digits _ _ c h)
  · rcases List.mem_cons.1 h with h | h
    · exact Or.inr h
    · exact Or.inl (padDigits_digits _ _ c h)

theorem Parse_Format (d : Date) (hy : d.year ≤ 9999) (hm1 : 1 ≤ d.month) (hm2 : d.month ≤ 12)
    (hd1 : 1 ≤ d.day) (hd2 : d.day ≤ daysIn d.month d.year) :
    time.Parse (strings.TrimSpace (time.Format d)) = some d ∧
    (∀ c ∈ (time.Format d).data, isDigit c = true ∨ c = '-') := by
  have hd31 : d.day ≤ 31 := by
    refine le_trans hd2 ?_
    unfold daysIn
    split
    · split <;> omega
    · split <;> omega
  obtain ⟨hyl, hyd, hyv⟩ := padDigits_spec 4 d.year (natDigits_length_le_four _ (by omega))
  obtain ⟨hml, hmd, hmv⟩ := padDigits_spec 2 d.month (natDigits_length_le_two _ (by omega))
  obtain ⟨hdl, hdd, hdv⟩ := padDigits_spec 2 d.day (natDigits_length_le_two _ (by omega))
  rcases hY : padDigits 4 d.year with _ | ⟨y1, _ | ⟨y2, _ | ⟨y3, _ | ⟨y4, _ | ⟨y5, yt⟩⟩⟩⟩⟩ <;>
    rw [hY] at hyl <;> simp at hyl
  rcases hM : padDigits 2 d.month with _ | ⟨m1, _ | ⟨m2, _ | ⟨m3, mt⟩⟩⟩ <;>
    rw [hM] at hml <;> simp at hml
  rcases hD : padDigits 2 d.day with _ | ⟨d1, _ | ⟨d2, _ | ⟨d3, dt⟩⟩⟩ <;>
    rw [hD] at hdl <;> simp at hdl
  rw [hY] at hyd hyv
  rw [hM] at hmd hmv
  rw [hD] at hdd hdv
  have hfmt : time.Format d = String.mk [y1, y2, y3, y4, '-', m1, m2, '-', d1, d2] := by
    simp [time.Format, hY, hM, hD]
  have hchars : ∀ c ∈ [y1, y2, y3, y4, '-', m1, m2, '-', d1, d2], isDigit c = true ∨ c = '-' := by
    intro c hc
    simp only [List.mem_cons, List.mem_singleton, List.not_mem_nil, or_false] at hc
    rcases hc with h | h | h | h | h | h | h | h | h | h
    · left; rw [h]; exact hyd _ (by simp)
    · left; rw [h]; exact hyd _ (by simp)
    · left; rw [h]; exact hyd _ (by simp)
    · left; rw [h]; exact hyd _ (by simp)
    · right; exact h
    · left; rw [h]; exact hmd _ (by simp)
    · left; rw [h]; exact hmd _ (by simp)
    · right; exact h
    · left; rw [h]; exact hdd _ (by simp)
    · left; rw [h]; exact hdd _ (by simp)
  have htrim : trimChars [y1, y2, y3, y4, '-', m1, m2, '-', d1, d2] =
      [y1, y2, y3, y4, '-', m1, m2, '-', d1, d2] := by
    apply trimChars_eq_self
    intro c hc
    rcases hchars c hc with h | h
    · exact isDigit_not_space c h
    · rw [h]; decide
  refine ⟨?_, ?_⟩
  · rw [hfmt]
    simp only [strings.TrimSpace, htrim, time.Parse]
    have hall : [y1, y2, y3, y4, m1, m2, d1, d2].all isDigit = true := by
      rw [List.all_eq_true]
      intro c hc
      simp only [List.mem_cons, List.mem_singleton, List.not_mem_nil, or_false] at hc
      rcases hc with h | h | h | h | h | h | h | h
      · rw [h]; exact hyd _ (by simp)
      · rw [h]; exact hyd _ (by simp)
      · rw [h]; exact hyd _ (by simp)
      · rw [h]; exact hyd _ (by simp)
      · rw [h]; exact hmd _ (by simp)
      · rw [h]; exact hmd _ (by simp)
      · rw [h]; exact hdd _ (by simp)
      · rw [h]; exact hdd _ (by simp)
    rw [hall, hyv, hmv, hdv]
    simp
    omega
  · rw [hfmt]
    exact hchars

theorem csvRun_append (a b : List Char) : ∀ (st st1 : CsvState),
    csvRun st a = .ok st1 → csvRun st (a ++ b) = csvRun st1 b := by
  induction a with
  | nil =>
      intro st st1 h
      simp only [csvRun, Except.ok.injEq] at h
      simp [h]
  | cons c rest ih =>
      intro st st1 h
      rw [csvRun] at h
      rw [List.cons_append, csvRun]
      cases hstep : st.step c with
      | error e => rw [hstep] at h; exact absurd h (by simp)
      | ok st2 =>
          rw [hstep] at h
          exact ih st2 st1 h

theorem csvRun_unquoted (cs : List Char)
    (hplain : ∀ c ∈ cs, c ≠ '\n' ∧ c ≠ '"' ∧ c ≠ ',') :
    ∀ (f : List Char) (rec : List String) (recs : List (List String)) (k : Nat),
      csvRun ⟨CsvMode.unquoted, f, rec, recs, k⟩ cs =
        .ok ⟨CsvMode.unquoted, f ++ cs, rec, recs, k⟩ := by
  induction cs with
  | nil => intro f rec recs k; simp [csvRun]
  | cons c rest ih =>
      intro f rec recs k
      obtain ⟨h1, h2, h3⟩ := hplain c (List.mem_cons_self _ _)
      have := ih (fun x hx => hplain x (List.mem_cons_of_mem _ hx)) (f ++ [c]) rec recs k
      simp [csvRun, CsvState.step, h1, h2, h3, this]

theorem csvRun_quoted (cs : List Char) :
    ∀ (f : List Char) (rec : List String) (recs : List (List String)) (k : Nat),
      csvRun ⟨CsvMode.quoted, f, rec, recs, k⟩
          (cs.flatMap (fun c => if c == '"' then ['"', '"'] else [c])) =
        .ok ⟨CsvMode.quoted, f ++ cs, rec, recs, k⟩ := by
  induction cs with
  | nil => intro f rec recs k; simp [csvRun]
  | cons c rest ih =>
      intro f rec recs k
      have := ih (f ++ [c]) rec recs k
      by_cases hc : c = '"'
      · subst hc
        simpa [csvRun, CsvState.step] using this
      · simpa [csvRun, CsvState.step, hc] using this

theorem fieldNeedsQuotes_false (fld : String) (h : fieldNeedsQuotes fld = false) :
    ∀ c ∈ fld.data, c ≠ '\n' ∧ c ≠ '"' ∧ c ≠ ',' := by
  intro c hc
  unfold fieldNeedsQuotes at h
  split at h
  · rename_i he
    have : fld = "" := by simpa using he
    subst this
    simp at hc
  · split at h
    · exact absurd h (by simp)
    · split at h
      · exact absurd h (by simp)
      · rename_i hany
        simp only [List.any_eq_true, not_exists, not_and, Bool.or_eq_true, beq_iff_eq, not_or] at hany
        have := hany c hc
        exact ⟨this.1.1.1, this.1.2, this.2⟩

/-- The state of the reader after a field that `Writer.Write` printed. -/
theorem csvRun_field (fld : String) (m : CsvMode)
    (hm : m = CsvMode.recordStart ∨ m = CsvMode.fieldStart)
    (rec : List String) (recs : List (List String)) (k : Nat) :
    ∃ m1, csvRun ⟨m, [], rec, recs, k⟩ (csvWriteField fld) = .ok ⟨m1, fld.data, rec, recs, k⟩ ∧
      (m1 = CsvMode.afterQuote ∨ m1 = CsvMode.unquoted ∨ (m1 = m ∧ fld.data = [])) := by
  unfold csvWriteField
  by_cases hq : fieldNeedsQuotes fld = true
  · refine ⟨CsvMode.afterQuote, ?_, Or.inl rfl⟩
    rw [if_pos hq, List.cons_append, csvRun]
    have hstep : CsvState.step ⟨m, [], rec, recs, k⟩ '"' = .ok ⟨CsvMode.quoted, [], rec, recs, k⟩ := by
      rcases hm with rfl | rfl <;> simp [CsvState.step]
    rw [hstep]
    simp only
    rw [csvRun_append _ _ _ _ (csvRun_quoted fld.data [] rec recs k)]
    simp [csvRun, CsvState.step]
  · rw [if_neg hq]
    have hq2 : fieldNeedsQuotes fld = false := by simpa using hq
    have hplain := fieldNeedsQuotes_false fld hq2
    cases hdata : fld.data with
    | nil => exact ⟨m, by simp [csvRun], Or.inr (Or.inr ⟨rfl, rfl⟩)⟩
    | cons c rest =>
        refine ⟨CsvMode.unquoted, ?_, Or.inr (Or.inl rfl)⟩
        rw [hdata] at hplain
        obtain ⟨h1, h2, h3⟩ := hplain c (List.mem_cons_self _ _)
        have hstep : CsvState.step ⟨m, [], rec, recs, k⟩ c =
            .ok ⟨CsvMode.unquoted, [c], rec, recs, k⟩ := by
          rcases hm with rfl | rfl <;> simp [CsvState.step, h1, h2, h3]
        rw [csvRun, hstep]
        simp only
        have := csvRun_unquoted rest (fun x hx => hplain x (List.mem_cons_of_mem _ hx))
          [c] rec recs k
        simpa using this

theorem csvRun_field_comma (fld : String) (m : CsvMode)
    (hm : m = CsvMode.recordStart ∨ m = CsvMode.fieldStart)
    (rec : List String) (recs : List (List String)) (k : Nat) (rest : List Char) :
    csvRun ⟨m, [], rec, recs, k⟩ (csvWriteField fld ++ ',' :: rest) =
      csvRun ⟨CsvMode.fieldStart, [], rec ++ [fld], recs, k⟩ rest := by
  obtain ⟨m1, hrun, hm1⟩ := csvRun_field fld m hm rec recs k
  rw [csvRun_append _ _ _ _ hrun, csvRun]
  have hstep : CsvState.step ⟨m1, fld.data, rec, recs, k⟩ ',' =
      .ok ⟨CsvMode.fieldStart, [], rec ++ [fld], recs, k⟩ := by
    rcases hm1 with rfl | rfl | ⟨rfl, hnil⟩
    · simp [CsvState.step, CsvState.endField]
    · simp [CsvState.step, CsvState.endField]
    · rcases hm with rfl | rfl <;> simp [CsvState.step, CsvState.endField]
  rw [hstep]

theorem csvRun_field_newline (fld : String)
    (rec : List String) (recs : List (List String)) (k : Nat) (rest : List Char)
    (hk : k = 0 ∨ k = (rec ++ [fld]).length) :
    csvRun ⟨CsvMode.fieldStart, [], rec, recs, k⟩ (csvWriteField fld ++ '\n' :: rest) =
      csvRun ⟨CsvMode.recordStart, [], [], recs ++ [rec ++ [fld]], (rec ++ [fld]).length⟩ rest := by
  obtain ⟨m1, hrun, hm1⟩ := csvRun_field fld CsvMode.fieldStart (Or.inr rfl) rec recs k
  rw [csvRun_append _ _ _ _ hrun, csvRun]
  have hstep : CsvState.step ⟨m1, fld.data, rec, recs, k⟩ '\n' =
      .ok ⟨CsvMode.recordStart, [], [], recs ++ [rec ++ [fld]], (rec ++ [fld]).length⟩ := by
    have hend : CsvState.endRecord ⟨m1, fld.data, rec, recs, k⟩ =
        .ok ⟨CsvMode.recordStart, [], [], recs ++ [rec ++ [fld]], (rec ++ [fld]).length⟩ := by
      rcases hk with rfl | hk
      · simp [CsvState.endRecord]
      · by_cases h0 : k = 0
        · subst h0; simp [CsvState.endRecord]
        · simp only [CsvState.endRecord]
          simp [h0, ← hk]
    rcases hm1 with rfl | rfl | ⟨rfl, _⟩ <;> simp [CsvState.step, hend]
  rw [hstep]

theorem csvWriteRecord_cons_cons (f g : String) (t : List String) :
    csvWriteRecord (f :: g :: t) = csvWriteField f ++ ',' :: csvWriteRecord (g :: t) := by
  simp [csvWriteRecord, List.intercalate, List.intersperse]

theorem csvWriteRecord_single (f : String) :
    csvWriteRecord [f] = csvWriteField f ++ ['\n'] := by
  simp [csvWriteRecord, List.intercalate, List.intersperse]

theorem csvRun_fields (fs : List String) (hne : fs ≠ []) :
    ∀ (rec : List String) (recs : List (List String)) (k : Nat) (rest : List Char),
      (k = 0 ∨ k = (rec ++ fs).length) →
      csvRun ⟨CsvMode.fieldStart, [], rec, recs, k⟩ (csvWriteRecord fs ++ rest) =
        csvRun ⟨CsvMode.recordStart, [], [], recs ++ [rec ++ fs], (rec ++ fs).length⟩ rest := by
  induction fs with
  | nil => exact absurd rfl hne
  | cons f t ih =>
      intro rec recs k rest hk
      cases t with
      | nil =>
          rw [csvWriteRecord_single, List.append_assoc, List.singleton_append]
          exact csvRun_field_newline f rec recs k rest hk
      | cons g t2 =>
          rw [csvWriteRecord_cons_cons, List.append_assoc, List.cons_append,
            csvRun_field_comma f CsvMode.fieldStart (Or.inr rfl)]
          have := ih (by simp) (rec ++ [f]) recs k rest (by simpa using hk)
          simpa using this

theorem csvRun_record (f : String) (fs : List String) (hne : fs ≠ [])
    (recs : List (List String)) (k : Nat) (rest : List Char)
    (hk : k = 0 ∨ k = (f :: fs).length) :
    csvRun ⟨CsvMode.recordStart, [], [], recs, k⟩ (csvWriteRecord (f :: fs) ++ rest) =
      csvRun ⟨CsvMode.recordStart, [], [], recs ++ [f :: fs], (f :: fs).length⟩ rest := by
  cases fs with
  | nil => exact absurd rfl hne
  | cons g t =>
      rw [csvWriteRecord_cons_cons, List.append_assoc, List.cons_append,
        csvRun_field_comma f CsvMode.recordStart (Or.inl rfl)]
      have := csvRun_fields (g :: t) (by simp) [f] recs k rest (by simpa using hk)
      simpa using this

theorem csvRun_records (n : Nat) (hn : 2 ≤ n) (records : List (List String))
    (hlen : ∀ r ∈ records, r.length = n) :
    ∀ (recs : List (List String)) (k : Nat), (k = 0 ∨ k = n) →
      ∃ k1, csvRun ⟨CsvMode.recordStart, [], [], recs, k⟩ (records.flatMap csvWriteRecord) =
        .ok ⟨CsvMode.recordStart, [], [], recs ++ records, k1⟩ := by
  induction records with
  | nil => intro recs k _; exact ⟨k, by simp [csvRun]⟩
  | cons r rest ih =>
      intro recs k hk
      have hr : r.length = n := hlen r (List.mem_cons_self _ _)
      obtain ⟨k1, h1⟩ := ih (fun x hx => hlen x (List.mem_cons_of_mem _ hx)) (recs ++ [r]) n
        (Or.inr rfl)
      refine ⟨k1, ?_⟩
      rcases r with _ | ⟨f, fs⟩
      · simp at hr; omega
      · have hfs : fs ≠ [] := by
          intro h; subst h; simp at hr; omega
        rw [List.flatMap_cons, csvRun_record f fs hfs recs k _ (by rw [hr]; exact hk), hr, h1]
        simp

theorem csvNormalize_eq_self (cs : List Char) (h : '\r' ∉ cs) : csvNormalize cs = cs := by
  induction cs with
  | nil => rfl
  | cons c rest ih =>
      have hc : c ≠ '\r' := fun e => h (by rw [e]; exact List.mem_cons_self _ _)
      have hrest : '\r' ∉ rest := fun e => h (List.mem_cons_of_mem _ e)
      simp [csvNormalize, hc, ih hrest]

theorem csvWriteField_no_cr (fld : String) (h : '\r' ∉ fld.data) :
    '\r' ∉ csvWriteField fld := by
  unfold csvWriteField
  split
  · intro hmem
    simp only [List.cons_append, List.mem_cons, List.mem_append, List.mem_flatMap,
      List.mem_singleton, List.not_mem_nil, or_false] at hmem
    rcases hmem with h1 | ⟨c, hc, hc2⟩ | h3
    · exact absurd h1 (by decide)
    · by_cases hq : c = '"'
      · subst hq
        simp at hc2
      · have hq2 : (c == '"') = false := by simpa using hq
        rw [hq2] at hc2
        simp only [Bool.false_eq_true, if_false, List.mem_singleton] at hc2
        exact h (hc2 ▸ hc)
    · exact absurd h3 (by decide)
  · exact h

theorem csvWriteRecord_no_cr (r : List String) (h : ∀ f ∈ r, '\r' ∉ f.data) :
    '\r' ∉ csvWriteRecord r := by
  induction r with
  | nil => simp [csvWriteRecord, List.intercalate]
  | cons f t ih =>
      have hf := csvWriteField_no_cr f (h f (List.mem_cons_self _ _))
      have ht := ih (fun x hx => h x (List.mem_cons_of_mem _ hx))
      cases t with
      | nil =>
          rw [csvWriteRecord_single]
          simp [hf]
      | cons g t2 =>
          rw [csvWriteRecord_cons_cons]
          intro hmem
          rcases List.mem_append.1 hmem with h1 | h1
          · exact hf h1
          · rcases List.mem_cons.1 h1 with h2 | h2
            · exact absurd h2 (by decide)
            · exact ht h2

theorem csvWriteAll_no_cr (records : List (List String))
    (h : ∀ r ∈ records, ∀ f ∈ r, '\r' ∉ f.data) :
    '\r' ∉ (csvWriteAll records).data := by
  unfold csvWriteAll
  simp only [List.mem_flatMap, not_exists, not_and]
  intro r hr
  exact csvWriteRecord_no_cr r (h r hr)

/-- The CSV reader returns the records the CSV writer was given, when every
record has the same number of fields, at least two, and no field holds a
carriage return. -/
theorem csvReadAll_csvWriteAll (n : Nat) (hn : 2 ≤ n) (records : List (List String))
    (hlen : ∀ r ∈ records, r.length = n)
    (hcr : ∀ r ∈ records, ∀ f ∈ r, '\r' ∉ f.data) :
    csvReadAll (csvWriteAll records) = .ok records := by
  unfold csvReadAll
  rw [csvNormalize_eq_self _ (csvWriteAll_no_cr records hcr)]
  obtain ⟨k1, h1⟩ := csvRun_records n hn records hlen [] 0 (Or.inl rfl)
  simp only [csvWriteAll, csvInit]
  rw [h1]
  simp [CsvState.finish]

theorem Itoa_chars (i : Int) : ∀ c ∈ (strconv.Itoa i).data, isDigit c = true ∨ c = '-' := by
  intro c hc
  cases i with
  | ofNat n =>
      exact Or.inl ((natDigits_spec n).2.1 c hc)
  | negSucc n =>
      simp only [strconv.Itoa, List.mem_cons] at hc
      rcases hc with h | h
      · exact Or.inr h
      · exact Or.inl ((natDigits_spec (n + 1)).2.1 c h)

theorem no_cr_of_digit_or_dash (cs : List Char)
    (h : ∀ c ∈ cs, isDigit c = true ∨ c = '-') : '\r' ∉ cs := by
  intro hmem
  rcases h _ hmem with h1 | h1
  · exact absurd h1 (by decide)
  · exact absurd h1 (by decide)

/-! ## Inputs of at most one row -/

theorem csvNormalize_cons (a : Char) (rest : List Char) :
    csvNormalize (a :: rest) =
      if a = '\r' then
        (if rest = [] then [] else if rest.head? = some '\n' then csvNormalize rest
          else a :: csvNormalize rest)
      else a :: csvNormalize rest := by
  cases rest with
  | nil => simp [csvNormalize]
  | cons d r2 => simp [csvNormalize]

theorem csvNormalize_subset : ∀ (cs : List Char), ∀ c ∈ csvNormalize cs, c ∈ cs := by
  intro cs
  induction cs with
  | nil => intro c hc; simp [csvNormalize] at hc
  | cons a rest ih =>
      intro c hc
      rw [csvNormalize_cons] at hc
      split at hc
      · split at hc
        · simp at hc
        · split at hc
          · exact List.mem_cons_of_mem _ (ih c hc)
          · rcases List.mem_cons.1 hc with h | h
            · rw [h]; exact List.mem_cons_self _ _
            · exact List.mem_cons_of_mem _ (ih c h)
      · rcases List.mem_cons.1 hc with h | h
        · rw [h]; exact List.mem_cons_self _ _
        · exact List.mem_cons_of_mem _ (ih c h)

theorem csvNormalize_line (line : List Char) (hnl : '\n' ∉ line) :
    ∃ line1, csvNormalize (line ++ ['\n']) = line1 ++ ['\n'] ∧ ∀ c ∈ line1, c ∈ line := by
  induction line with
  | nil => exact ⟨[], by simp [csvNormalize], by simp⟩
  | cons a rest ih =>
      have hrest : '\n' ∉ rest := fun h => hnl (List.mem_cons_of_mem _ h)
      obtain ⟨l1, hl1, hsub⟩ := ih hrest
      by_cases ha : a = '\r'
      · subst ha
        cases rest with
        | nil => exact ⟨[], by simp [csvNormalize], by simp⟩
        | cons d r2 =>
            have hd : d ≠ '\n' := fun h => hnl (by rw [h]; simp)
            refine ⟨'\r' :: l1, ?_, ?_⟩
            · rw [List.cons_append, csvNormalize_cons, hl1]
              simp [hd]
            · intro c hc
              rcases List.mem_cons.1 hc with h | h
              · rw [h]; exact List.mem_cons_self _ _
              · exact List.mem_cons_of_mem _ (hsub c h)
      · refine ⟨a :: l1, ?_, ?_⟩
        · rw [List.cons_append, csvNormalize_cons, hl1]
          simp [ha]
        · intro c hc
          rcases List.mem_cons.1 hc with h | h
          · rw [h]; exact List.mem_cons_self _ _
          · exact List.mem_cons_of_mem _ (hsub c h)

theorem csvRun_one_line (cs : List Char) (hq : '"' ∉ cs) (hnl : '\n' ∉ cs) :
    ∀ st : CsvState,
      (st.mode = CsvMode.recordStart ∨ st.mode = CsvMode.fieldStart ∨
        st.mode = CsvMode.unquoted) →
      ∃ st1, csvRun st cs = .ok st1 ∧
        (st1.mode = CsvMode.recordStart ∨ st1.mode = CsvMode.fieldStart ∨
          st1.mode = CsvMode.unquoted) ∧
        st1.records = st.records ∧ st1.fieldsPerRecord = st.fieldsPerRecord := by
  induction cs with
  | nil => intro st hm; exact ⟨st, rfl, hm, rfl, rfl⟩
  | cons c rest ih =>
      intro st hm
      have hc1 : c ≠ '"' := fun h => hq (by rw [h]; exact List.mem_cons_self _ _)
      have hc2 : c ≠ '\n' := fun h => hnl (by rw [h]; exact List.mem_cons_self _ _)
      have hq2 : '"' ∉ rest := fun h => hq (List.mem_cons_of_mem _ h)
      have hnl2 : '\n' ∉ rest := fun h => hnl (List.mem_cons_of_mem _ h)
      have hstep : ∃ st2, st.step c = .ok st2 ∧
          (st2.mode = CsvMode.recordStart ∨ st2.mode = CsvMode.fieldStart ∨
            st2.mode = CsvMode.unquoted) ∧
          st2.records = st.records ∧ st2.fieldsPerRecord = st.fieldsPerRecord := by
        obtain ⟨mode, field, record, records, k⟩ := st
        simp only at hm
        by_cases hcomma : c = ','
        · rcases hm with rfl | rfl | rfl <;>
            simp [CsvState.step, CsvState.endField, hc1, hc2, hcomma]
        · rcases hm with rfl | rfl | rfl <;>
            simp [CsvState.step, CsvState.endField, hc1, hc2, hcomma]
      obtain ⟨st2, hs2, hm2, hr2, hk2⟩ := hstep
      obtain ⟨st1, hrun, hm1, hr1, hk1⟩ := ih hq2 hnl2 st2 hm2
      refine ⟨st1, ?_, hm1, hr1.trans hr2, hk1.trans hk2⟩
      rw [csvRun, hs2]
      exact hrun

theorem csvReadAll_one_line (line : List Char) (hq : '"' ∉ line) (hnl : '\n' ∉ line) :
    (∃ records, csvReadAll (String.mk (line ++ ['\n'])) = .ok records ∧ records.length ≤ 1) ∧
    (∃ records, csvReadAll (String.mk line) = .ok records ∧ records.length ≤ 1) := by
  have hfinish : ∀ st : CsvState,
      (st.mode = CsvMode.recordStart ∨ st.mode = CsvMode.fieldStart ∨
        st.mode = CsvMode.unquoted) → st.records = [] → st.fieldsPerRecord = 0 →
      ∃ records, st.finish = .ok records ∧ records.length ≤ 1 := by
    intro st hm hr hk
    obtain ⟨mode, field, record, records, k⟩ := st
    simp only at hm hr hk
    subst hr hk
    rcases hm with rfl | rfl | rfl <;> simp [CsvState.finish, CsvState.endRecord]
  constructor
  · obtain ⟨l1, hl1, hsub⟩ := csvNormalize_line line hnl
    have hq1 : '"' ∉ l1 := fun h => hq (hsub _ h)
    have hnl1 : '\n' ∉ l1 := fun h => hnl (hsub _ h)
    obtain ⟨st1, hrun, hm1, hr1, hk1⟩ := csvRun_one_line l1 hq1 hnl1 csvInit (Or.inl rfl)
    unfold csvReadAll
    simp only [hl1]
    rw [csvRun_append _ _ _ _ hrun]
    obtain ⟨mode, field, record, records, k⟩ := st1
    simp only [csvInit] at hm1 hr1 hk1
    subst hr1 hk1
    rcases hm1 with rfl | rfl | rfl <;>
      simp [csvRun, CsvState.step, CsvState.endRecord, CsvState.finish]
  · have hq1 : '"' ∉ csvNormalize line := fun h => hq (csvNormalize_subset _ _ h)
    have hnl1 : '\n' ∉ csvNormalize line := fun h => hnl (csvNormalize_subset _ _ h)
    obtain ⟨st1, hrun, hm1, hr1, hk1⟩ :=
      csvRun_one_line (csvNormalize line) hq1 hnl1 csvInit (Or.inl rfl)
    unfold csvReadAll
    simp only [hrun]
    exact hfinish st1 hm1 hr1 hk1

/-- C9. A CSV input that the tokenizer reads as no row or as a single row
gives an empty record sequence and no error, whatever that row holds: on the
rows themselves the parser returns nothing for the empty list and for any
one-row list, and on the text every single line without a double quote, with
or without its newline, is such an input. -/
theorem parseCSV_header_only {F : Type} (fl : Float64Lib F) (r : String)
    (records : List (List String)) (hread : csvReadAll r = .ok records)
    (hlen : records.length ≤ 1) :
    parseCSV fl r = .ok [] ∧ parseRecords fl [] = [] ∧
    (∀ row : List String, parseRecords fl [row] = []) ∧
    (∀ line : List Char, '"' ∉ line → '\n' ∉ line →
      parseCSV fl (String.mk (line ++ ['\n'])) = .ok [] ∧
      parseCSV fl (String.mk line) = .ok []) := by
  have hsmall : ∀ (text : String) (recs : List (List String)),
      csvReadAll text = .ok recs → recs.length ≤ 1 → parseCSV fl text = .ok [] := by
    intro text recs h1 h2
    have h3 : recs.length < 2 := by omega
    simp [parseCSV, h1, parseRecords, h3]
  refine ⟨hsmall r records hread hlen, rfl, fun _ => rfl, ?_⟩
  intro line hq hnl
  obtain ⟨⟨recs1, h1, hl1⟩, ⟨recs2, h2, hl2⟩⟩ := csvReadAll_one_line line hq hnl
  exact ⟨hsmall _ recs1 h1 hl1, hsmall _ recs2 h2 hl2⟩

theorem parseCSV_header_only_witness :
    parseCSV centsFloat "1,Widget,Tools,9.99,2024-01-15\n" = .ok [] ∧
    parseCSV centsFloat "" = .ok [] :=
  ⟨(parseCSV_header_only centsFloat "1,Widget,Tools,9.99,2024-01-15\n"
      [["1", "Widget", "Tools", "9.99", "2024-01-15"]] (by decide) (by decide)).1,
   (parseCSV_header_only centsFloat "" [] (by decide) (by decide)).1⟩

/-! ## Export handler -/

theorem exportLoop_ok {F : Type} (fl : Float64Lib F) (env : Faults) (rows : List (Row F)) :
    ∀ (i : Nat) (written result : List (List String)),
      exportLoop fl env rows i written = .ok result →
      result = written ++ rows.map (exportRecord fl) := by
  induction rows with
  | nil =>
      intro i written result h
      simp only [exportLoop, Except.ok.injEq] at h
      simp [h]
  | cons row rest ih =>
      intro i written result h
      rw [exportLoop] at h
      split at h
      · exact absurd h (by simp)
      · have := ih (i + 1) _ result h
        simp [this]

theorem exportLoop_noFaults {F : Type} (fl : Float64Lib F) (rows : List (Row F)) :
    ∀ (i : Nat) (written : List (List String)),
      exportLoop fl noFaults rows i written = .ok (written ++ rows.map (exportRecord fl)) := by
  induction rows with
  | nil => intro i written; simp [exportLoop]
  | cons row rest ih =>
      intro i written
      rw [exportLoop, if_neg (by simp [noFaults]), ih]
      simp

theorem exportRecords_ok {F : Type} (fl : Float64Lib F) (env : Faults) (db : DB F)
    (written : List (List String)) (h : exportRecords fl env db = .ok written) :
    written = exportHeader :: (selectOrderById db).map (exportRecord fl) := by
  unfold exportRecords at h
  split at h
  · exact absurd h (by simp)
  · split at h
    · exact absurd h (by simp)
    · cases hloop : exportLoop fl env (selectOrderById db) 0 [exportHeader] with
      | error e => rw [hloop] at h; exact absurd h (by simp)
      | ok w =>
          rw [hloop] at h
          have hw := exportLoop_ok fl env _ 0 _ w hloop
          simp only at h
          split at h
          · exact absurd h (by simp)
          · split at h
            · exact absurd h (by simp)
            · simp only [Except.ok.injEq] at h
              rw [← h, hw]
              rfl

theorem getPricesHandler_noFaults {F : Type} (fl : Float64Lib F) (db : DB F) :
    getPricesHandler fl noFaults db =
      { status := StatusOK,
        reply := ExportReply.zip
          [("data.csv", csvWriteAll (exportHeader :: (selectOrderById db).map (exportRecord fl)))] } := by
  have h := exportLoop_noFaults fl (selectOrderById db) 0 [exportHeader]
  simp only [noFaults] at h
  simp [getPricesHandler, exportRecords, noFaults, h]

theorem exportRecord_no_cr {F : Type} (fl : Float64Lib F) (row : Row F)
    (h : rowHasNoCR fl row) :
    ∀ f ∈ exportRecord fl row, '\r' ∉ f.data := by
  obtain ⟨hname, hcat, hprice⟩ := h
  intro f hf
  simp only [exportRecord, List.mem_cons, List.mem_singleton, List.not_mem_nil, or_false] at hf
  rcases hf with rfl | rfl | rfl | rfl | rfl
  · exact no_cr_of_digit_or_dash _ (Itoa_chars row.id)
  · exact hname
  · exact hcat
  · exact hprice
  · exact no_cr_of_digit_or_dash _ (Format_chars row.create_date)

theorem csvReadAll_export {F : Type} (fl : Float64Lib F) (rows : List (Row F))
    (h : ∀ row ∈ rows, rowHasNoCR fl row) :
    csvReadAll (csvWriteAll (exportHeader :: rows.map (exportRecord fl))) =
      .ok (exportHeader :: rows.map (exportRecord fl)) := by
  apply csvReadAll_csvWriteAll 5 (by omega)
  · intro r hr
    rcases List.mem_cons.1 hr with rfl | hr
    · rfl
    · obtain ⟨row, _, rfl⟩ := List.mem_map.1 hr
      rfl
  · intro r hr
    rcases List.mem_cons.1 hr with rfl | hr
    · decide
    · obtain ⟨row, hrow, rfl⟩ := List.mem_map.1 hr
      exact exportRecord_no_cr fl row (h row hrow)

/-- C7. Export content: whenever the export handler answers with success, the
archive has the single member `data.csv` whose CSV is the header record
followed by one record per stored row, in ascending `id` order, each with
the fields id, name, category, price, create date in that order: `n + 1`
records for `n` stored rows. Without faults the handler does answer with
success; for an empty table the CSV is the header line alone; and when no
name, category or printed price holds a carriage return, reading the CSV
text gives back exactly these `n + 1` records. -/
theorem export_is_header_then_rows_by_id {F : Type} (fl : Float64Lib F) (env : Faults)
    (db : DB F) :
    ((getPricesHandler fl env db).status = StatusOK →
      (getPricesHandler fl env db).reply = ExportReply.zip
        [("data.csv", csvWriteAll (exportHeader :: (selectOrderById db).map (exportRecord fl)))]) ∧
    (getPricesHandler fl noFaults db).status = StatusOK ∧
    (exportHeader :: (selectOrderById db).map (exportRecord fl)).length = db.rows.length + 1 ∧
    exportHeader = ["id", "name", "category", "price", "create_date"] ∧
    (∀ row : Row F, exportRecord fl row =
      [strconv.Itoa row.id, row.name, row.category, fl.FormatFloat row.price,
       time.Format row.create_date]) ∧
    List.Perm (selectOrderById db) db.rows ∧
    List.Sorted (fun a b : Int => a ≤ b) ((selectOrderById db).map (fun r => r.id)) ∧
    (db.rows = [] →
      (getPricesHandler fl noFaults db).reply =
        ExportReply.zip [("data.csv", "id,name,category,price,create_date\n")]) ∧
    ((∀ row ∈ db.rows, rowHasNoCR fl row) →
      csvReadAll (csvWriteAll (exportHeader :: (selectOrderById db).map (exportRecord fl))) =
        .ok (exportHeader :: (selectOrderById db).map (exportRecord fl))) := by
  refine ⟨?_, ?_, ?_, rfl, fun _ => rfl, ?_, ?_, ?_, ?_⟩
  · intro hstatus
    unfold getPricesHandler at hstatus ⊢
    cases hrec : exportRecords fl env db with
    | error e => simp [hrec, StatusOK, StatusInternalServerError] at hstatus
    | ok written =>
        simp only [hrec] at hstatus ⊢
        split at hstatus
        · simp [StatusOK, StatusInternalServerError] at hstatus
        · rename_i hz
          simp only [hz]
          rw [exportRecords_ok fl env db written hrec]
          rfl
  · rw [getPricesHandler_noFaults]
  · simp [selectOrderById, List.length_insertionSort]
  · exact List.perm_insertionSort _ _
  · have hs := List.sorted_insertionSort (fun a b : Row F => a.id ≤ b.id) db.rows
    unfold selectOrderById
    unfold List.Sorted at hs ⊢
    rw [List.pairwise_map]
    exact hs
  · intro hempty
    rw [getPricesHandler_noFaults]
    simp only [selectOrderById, hempty, List.insertionSort, List.map_nil]
    decide
  · intro hcr
    apply csvReadAll_export
    intro row hrow
    exact hcr row ((List.perm_insertionSort _ _).mem_iff.1 hrow)

theorem export_is_header_then_rows_by_id_witness :
    (getPricesHandler centsFloat noFaults sampleTable).reply =
      ExportReply.zip [("data.csv",
        "id,name,category,price,create_date\n1,\"Widget, large\",Tools,9.99,2024-01-15\n2,Gadget,Toys,1.50,2024-01-16\n3,Gizmo,Tools,0.05,2024-02-29\n")] := by
  rw [(export_is_header_then_rows_by_id centsFloat noFaults sampleTable).1 (by decide)]
  decide

/-! ## Export, then re-import -/

theorem parseRecord_exportRecord {F : Type} (fl : Float64Lib F) (row : Row F)
    (h : rowRoundTrips fl row) :
    parseRecord fl (exportRecord fl row) = some (rowAsPrice row) := by
  obtain ⟨hlo, hhi, hname, _, hcat, _, hprice, _, hy, hm1, hm2, hd1, hd2, _⟩ := h
  have hid := Atoi_Itoa row.id hlo hhi
  have hdate := (Parse_Format row.create_date hy hm1 hm2 hd1 hd2).1
  unfold parseRecord exportRecord
  rw [if_neg (by simp)]
  simp only [List.getD_cons_zero, List.getD_cons_succ]
  rw [hid, hprice, hdate, hname, hcat]
  rfl

theorem rowHasNoCR_of_roundTrips {F : Type} (fl : Float64Lib F) (row : Row F)
    (h : rowRoundTrips fl row) : rowHasNoCR fl row :=
  ⟨h.2.2.2.1, h.2.2.2.2.2.1, h.2.2.2.2.2.2.2.1⟩

theorem filterMap_parseRecord_export {F : Type} (fl : Float64Lib F) (rows : List (Row F))
    (h : ∀ row ∈ rows, rowRoundTrips fl row) :
    (rows.map (exportRecord fl)).filterMap (parseRecord fl) = rows.map rowAsPrice := by
  induction rows with
  | nil => rfl
  | cons row rest ih =>
      have hrow := parseRecord_exportRecord fl row (h row (List.mem_cons_self _ _))
      have hrest := ih (fun x hx => h x (List.mem_cons_of_mem _ hx))
      simp [List.filterMap_cons, hrow, hrest]

theorem parseCSV_export {F : Type} (fl : Float64Lib F) (rows : List (Row F))
    (h : ∀ row ∈ rows, rowRoundTrips fl row) :
    parseCSV fl (csvWriteAll (exportHeader :: rows.map (exportRecord fl))) =
      .ok (rows.map rowAsPrice) := by
  unfold parseCSV
  rw [csvReadAll_export fl rows (fun row hrow => rowHasNoCR_of_roundTrips fl row (h row hrow))]
  simp only [parseRecords_cons, filterMap_parseRecord_export fl rows h]

theorem columnValues_rowAsPrice {F : Type} (fl : Float64Lib F) (row : Row F)
    (h : rowRoundTrips fl row) :
    columnValues fl (rowAsPrice row) =
      some (row.name, row.category, row.price, row.create_date) := by
  obtain ⟨_, _, _, _, _, _, _, _, _, _, _, _, _, hname, hcat, hprice⟩ := h
  simp [columnValues, rowAsPrice, varchar255, hname, hcat, hprice]

theorem storeAndReply_noFaults {F : Type} (fl : Float64Lib F) (db : DB F)
    (prices : List (Price F)) (calls : List Call)
    (hcols : ∀ p ∈ prices, (columnValues fl p).isSome = true) :
    ∃ stats, storeAndReply fl noFaults db prices calls =
      { status := StatusOK, reply := Reply.json stats,
        db := { rows := db.rows ++ storedRows fl db.lastId prices,
                lastId := db.lastId + prices.length },
        calls := calls ++ [Call.insertPrices, Call.getStats] } ∧
      stats.TotalItems = prices.length := by
  have hloop := insertLoop_ok fl noFaults prices 0 db 0
    (fun _ p hp => ⟨rfl, hcols p (List.getElem?_mem hp)⟩)
  have hins : insertPrices fl noFaults db prices =
      ((prices.length, none), { rows := db.rows ++ storedRows fl db.lastId prices,
                                lastId := db.lastId + prices.length }) := by
    unfold insertPrices
    rw [hloop]
    simp [noFaults]
  refine ⟨{ TotalItems := prices.length,
            TotalCategories := ((db.rows ++ storedRows fl db.lastId prices).map
              (fun r => r.category)).dedup.length,
            TotalPrice := ((db.rows ++ storedRows fl db.lastId prices).map
              (fun r => r.price)).foldl fl.add fl.zero }, ?_, rfl⟩
  unfold storeAndReply
  rw [hins]
  simp [getStats, noFaults]

theorem storedRows_columns {F : Type} (fl : Float64Lib F) (rows : List (Row F))
    (h : ∀ row ∈ rows, rowRoundTrips fl row) : ∀ lastId : Int,
    (storedRows fl lastId (rows.map rowAsPrice)).map
        (fun r => (r.name, r.category, r.price, r.create_date)) =
      rows.map (fun r => (r.name, r.category, r.price, r.create_date)) := by
  induction rows with
  | nil => intro lastId; rfl
  | cons row rest ih =>
      intro lastId
      have hrow := columnValues_rowAsPrice fl row (h row (List.mem_cons_self _ _))
      have hrest := ih (fun x hx => h x (List.mem_cons_of_mem _ hx)) (lastId + 1)
      simp [storedRows, hrow, hrest]

theorem storedRows_ids {F : Type} (fl : Float64Lib F) (prices : List (Price F)) :
    ∀ lastId : Int, ∀ r ∈ storedRows fl lastId prices, lastId < r.id := by
  induction prices with
  | nil => intro lastId r hr; simp [storedRows] at hr
  | cons p rest ih =>
      intro lastId r hr
      rw [storedRows] at hr
      cases hv : columnValues fl p with
      | none => simp [hv] at hr
      | some v =>
          obtain ⟨name, category, price, createDate⟩ := v
          simp only [hv, List.mem_cons] at hr
          rcases hr with rfl | hr
          · simp
          · have := ih (lastId + 1) r hr
            omega

/-- C6, refuted as stated: the table with the one row of key 1 exports to
`1,Widget,Tools,9.99,2024-01-15`; re-importing that stores a row with the
same name, category, price and date but with key 2, because the insert does
not write the `id` column. -/
theorem reimported_row_gets_new_id :
    (getPricesHandler centsFloat noFaults oneRowTable).reply = ExportReply.zip
      [("data.csv", "id,name,category,price,create_date\n1,Widget,Tools,9.99,2024-01-15\n")] ∧
    (exportThenReimport centsFloat noFaults oneRowTable).map (fun res => res.db.rows) =
      some [{ id := 1, name := "Widget", category := "Tools", price := 999,
              create_date := ⟨2024, 1, 15⟩ },
            { id := 2, name := "Widget", category := "Tools", price := 999,
              create_date := ⟨2024, 1, 15⟩ }] ∧
    ¬ specRoundTrip centsFloat oneRowTable := by
  refine ⟨by decide, by decide, ?_⟩
  rintro ⟨res, stats, hres, _, _, hrows⟩
  have hval : (exportThenReimport centsFloat noFaults oneRowTable).map (fun res => res.db.rows) =
      some [{ id := 1, name := "Widget", category := "Tools", price := 999,
              create_date := ⟨2024, 1, 15⟩ },
            { id := 2, name := "Widget", category := "Tools", price := 999,
              create_date := ⟨2024, 1, 15⟩ }] := by decide
  rw [hres] at hval
  simp only [Option.map_some', Option.some.injEq] at hval
  rw [hval] at hrows
  revert hrows
  decide

/-- C6, amended. For a table whose rows print, read back and store again
unchanged (`rowRoundTrips`), exporting without faults and uploading the resulting ZIP
succeeds with `total_items` equal to the number of data rows of the exported
CSV, and the rows it stores have, in export order, the name, category, price
and create date of the exported rows. Their keys are not the exported ones:
they are the next values of the sequence, above `lastId`, hence different
from every stored key when the sequence is ahead of the table. -/
theorem export_reimport_keeps_columns {F : Type} (fl : Float64Lib F) (db : DB F)
    (hrows : ∀ row ∈ db.rows, rowRoundTrips fl row) :
    ∃ res stats, exportThenReimport fl noFaults db = some res ∧
      res.status = StatusOK ∧
      res.reply = Reply.json stats ∧
      stats.TotalItems = db.rows.length ∧
      csvReadAll (csvWriteAll (exportHeader :: (selectOrderById db).map (exportRecord fl))) =
        .ok (exportHeader :: (selectOrderById db).map (exportRecord fl)) ∧
      ((selectOrderById db).map (exportRecord fl)).length = db.rows.length ∧
      res.db.rows.take db.rows.length = db.rows ∧
      (res.db.rows.drop db.rows.length).map
          (fun r => (r.name, r.category, r.price, r.create_date)) =
        (selectOrderById db).map (fun r => (r.name, r.category, r.price, r.create_date)) ∧
      (∀ r ∈ res.db.rows.drop db.rows.length, db.lastId < r.id) ∧
      ((∀ old ∈ db.rows, old.id ≤ db.lastId) →
        ∀ r ∈ res.db.rows.drop db.rows.length, ∀ old ∈ db.rows, r.id ≠ old.id) := by
  have hsorted : ∀ row ∈ selectOrderById db, rowRoundTrips fl row := by
    intro row hrow
    exact hrows row ((List.perm_insertionSort _ _).mem_iff.1 hrow)
  have hlen : (selectOrderById db).length = db.rows.length := by
    simp [selectOrderById, List.length_insertionSort]
  have hsuffix : strings.HasSuffix "data.csv" ".csv" = true := by decide
  have hcols : ∀ p ∈ (selectOrderById db).map rowAsPrice, (columnValues fl p).isSome = true := by
    intro p hp
    obtain ⟨row, hrow, rfl⟩ := List.mem_map.1 hp
    rw [columnValues_rowAsPrice fl row (hsorted row hrow)]
    rfl
  obtain ⟨stats, hstore, hcount⟩ := storeAndReply_noFaults fl db
    ((selectOrderById db).map rowAsPrice) [Call.extractZip] hcols
  have hpost : exportThenReimport fl noFaults db =
      some (storeAndReply fl noFaults db ((selectOrderById db).map rowAsPrice)
        [Call.extractZip]) := by
    unfold exportThenReimport
    rw [getPricesHandler_noFaults]
    simp only
    rw [postPricesHandler_zip fl noFaults db none _ (Or.inl rfl)]
    have hx : extractZip fl noFaults
        { zip := some (asMembers [("data.csv",
            csvWriteAll (exportHeader :: (selectOrderById db).map (exportRecord fl)))]),
          tar := ⟨[], true⟩ } = .ok ((selectOrderById db).map rowAsPrice) := by
      simp only [extractZip, noFaults, Bool.false_eq_true, if_false, asMembers, List.map_cons,
        List.map_nil, extractZipLoop, hsuffix, if_true]
      exact parseCSV_export fl _ hsorted
    rw [hx]
  have hdrop : (db.rows ++ storedRows fl db.lastId ((selectOrderById db).map rowAsPrice)).drop
      db.rows.length = storedRows fl db.lastId ((selectOrderById db).map rowAsPrice) := by
    simp
  refine ⟨_, stats, hpost, ?_, ?_, ?_,
    csvReadAll_export fl _ (fun row hrow => rowHasNoCR_of_roundTrips fl row (hsorted row hrow)),
    ?_, ?_, ?_, ?_, ?_⟩
  · rw [hstore]
  · rw [hstore]
  · rw [hcount, List.length_map, hlen]
  · rw [List.length_map, hlen]
  · rw [hstore]
    simp
  · rw [hstore]
    simp only [hdrop]
    exact storedRows_columns fl _ hsorted _
  · rw [hstore]
    simp only [hdrop]
    exact storedRows_ids fl _ _
  · intro hseq r hr old hold
    rw [hstore] at hr
    simp only [hdrop] at hr
    have h1 := storedRows_ids fl _ _ r hr
    have h2 := hseq old hold
    omega

theorem export_reimport_keeps_columns_witness :
    ∃ res stats, exportThenReimport centsFloat noFaults sampleTable = some res ∧
      res.status = StatusOK ∧
      res.reply = Reply.json stats ∧
      stats.TotalItems = 3 ∧
      (res.db.rows.drop 3).map (fun r => (r.id, r.name, r.price)) =
        [(4, "Widget, large", 999), (5, "Gadget", 150), (6, "Gizmo", 5)] := by
  have hrows : ∀ row ∈ sampleTable.rows, rowRoundTrips centsFloat row := by
    intro row hrow
    simp only [sampleTable, List.mem_cons, List.mem_singleton, List.not_mem_nil, or_false] at hrow
    rcases hrow with rfl | rfl | rfl <;> decide
  obtain ⟨res, stats, hres, hstatus, hreply, hcount, _, _, _, _, _, _⟩ :=
    export_reimport_keeps_columns centsFloat sampleTable hrows
  refine ⟨res, stats, hres, hstatus, hreply, hcount, ?_⟩
  have hval : (exportThenReimport centsFloat noFaults sampleTable).map
      (fun res => (res.db.rows.drop 3).map (fun r => (r.id, r.name, r.price))) =
      some [(4, "Widget, large", 999), (5, "Gadget", 150), (6, "Gizmo", 5)] := by decide
  rw [hres] at hval
  simpa using hval

/-- A carriage return inside a stored name does not survive the round trip:
the name `a\r\nb`, which the row parser produces from the quoted field
`"a\r\r\nb"`, is exported as `"a\r\nb"` and read back as `a\nb`. -/
theorem carriage_return_is_not_kept :
    parseCSV centsFloat "id,name,category,price,create_date\n1,\"a\r\r\nb\",Tools,9.99,2024-01-15\n" =
      .ok [{ ID := 1, Name := "a\r\nb", Category := "Tools", Price := 999,
             CreateDate := ⟨2024, 1, 15⟩ }] ∧
    parseCSV centsFloat (csvWriteAll [exportHeader, exportRecord centsFloat
        { id := 1, name := "a\r\nb", category := "Tools", price := 999,
          create_date := ⟨2024, 1, 15⟩ }]) =
      .ok [{ ID := 1, Name := "a\nb", Category := "Tools", Price := 999,
             CreateDate := ⟨2024, 1, 15⟩ }] := by
  refine ⟨by decide, by decide⟩

end PriceService
